import Mathlib

/-!
# wpiutil: ConcurrentQueue, TCPConnector and StringRef

A shallow embedding of `wpi/ConcurrentQueue.h`, `wpi/TCPConnector.h` and `wpi/StringRef.h`,
followed by the properties established about them.

Conventions
* A member function that holds `mutex_` for its whole body is one atomic step on the protected
  state, so the queue is modelled by explicit state passing.
* `size_t` values are natural numbers below `2 ^ 64`; arithmetic that can wrap is written with an
  explicit `% SIZE_MOD`.
-/

namespace wpi

/-! ## Definitions -/

/-! ### `wpi/ConcurrentQueue.h` -/

/-- The state protected by `mutex_`: the contents of `queue_` (a `std::queue<T>`), front first. -/
structure ConcurrentQueue (T : Type) where
  queue_ : List T
deriving DecidableEq, Repr

namespace ConcurrentQueue

variable {T : Type}

/-- The default constructor `ConcurrentQueue() = default`: an empty `queue_`. -/
def init : ConcurrentQueue T := ⟨[]⟩

/-- Member `empty()`: `return queue_.empty();`. -/
def empty (q : ConcurrentQueue T) : Bool := q.queue_.isEmpty

/-- Member `size()`: `return queue_.size();`. -/
def size (q : ConcurrentQueue T) : Nat := q.queue_.length

/-- Member `push(const T&)` and `push(T&&)`: `queue_.push(item)` appends at the back of the
underlying `std::queue`; the body has no loop, no wait and no failure path. -/
def push (q : ConcurrentQueue T) (item : T) : ConcurrentQueue T := ⟨q.queue_ ++ [item]⟩

/-- Member `emplace(Args&&...)`: `queue_.emplace(args...)` constructs the item from the arguments
(`ctor`) at the back of the queue. -/
def emplace {Args : Type} (ctor : Args → T) (q : ConcurrentQueue T) (args : Args) :
    ConcurrentQueue T := ⟨q.queue_ ++ [ctor args]⟩

/-- One pass of `pop` with the lock held. `none`: `queue_.empty()` holds, the caller sits in
`cond_.wait(mlock)`. `some (item, q)`: the front has been taken (`queue_.front()`, then
`queue_.pop()`), `q` is the state left behind. Both overloads, `T pop()` and `void pop(T&)`,
have this body. -/
def pop (q : ConcurrentQueue T) : Option (T × ConcurrentQueue T) :=
  match q.queue_ with
  | [] => none
  | item :: rest => some (item, ⟨rest⟩)

/-- The items other threads push while the consumer is inside `cond_.wait`. -/
def pushAll (q : ConcurrentQueue T) (items : List T) : ConcurrentQueue T :=
  items.foldl push q

/-- The loop `while (queue_.empty()) cond_.wait(mlock);` followed by the removal of the front.
`producers n` lists what other threads push during the `n`-th wait; `wakeups` bounds how many
times the waiting thread is woken. The result is `none` while the call has not returned. There is
no deadline argument and no result other than an item. -/
def pop_wait (producers : Nat → List T) :
    (wakeups : Nat) → (n : Nat) → ConcurrentQueue T → Option (T × ConcurrentQueue T)
  | 0, _, q => q.pop
  | wakeups + 1, n, q =>
    match q.pop with
    | some r => some r
    | none => pop_wait producers wakeups (n + 1) (q.pushAll (producers n))

/-- The operations of one history of the queue, in the order in which they take the lock. -/
inductive Op (T : Type) where
  | push (item : T)
  | emplace (item : T)
  | pop
deriving DecidableEq, Repr

/-- Runs a history from state `q`. The result holds the items returned by the `pop` calls, in call
order, and the final state; it is `none` when some `pop` finds the queue empty (such a call would
wait for a producer that the history does not contain). -/
def run : ConcurrentQueue T → List (Op T) → Option (List T × ConcurrentQueue T)
  | q, [] => some ([], q)
  | q, Op.push item :: ops => run (q.push item) ops
  | q, Op.emplace item :: ops => run (q.emplace id item) ops
  | q, Op.pop :: ops =>
    match q.pop with
    | none => none
    | some (item, q') =>
      match run q' ops with
      | none => none
      | some (out, qf) => some (item :: out, qf)

/-- The items inserted by a history, in insertion order. -/
def pushed : List (Op T) → List T
  | [] => []
  | Op.push item :: ops => item :: pushed ops
  | Op.emplace item :: ops => item :: pushed ops
  | Op.pop :: ops => pushed ops

/-- The number of `pop` calls of a history. -/
def pops : List (Op T) → Nat
  | [] => 0
  | Op.pop :: ops => pops ops + 1
  | _ :: ops => pops ops

/-- Every `pop` of the history is applied when the queue is non-empty: `pending` counts the items
inserted and not yet removed. -/
def popsEnabled : Nat → List (Op T) → Bool
  | _, [] => true
  | pending, Op.push _ :: ops => popsEnabled (pending + 1) ops
  | pending, Op.emplace _ :: ops => popsEnabled (pending + 1) ops
  | 0, Op.pop :: _ => false
  | pending + 1, Op.pop :: ops => popsEnabled pending ops

end ConcurrentQueue

/-! ### `wpi/TCPConnector.h`

The header under `src/` only declares `TCPConnector::connect` and
`TCPConnector::connect_parallel`; their bodies are not part of the sources. The definitions of
this section follow the design document (sections 3, 4, 6 and 7). Time is discrete, the race
starts at instant `0`, and the behaviour of the network is an explicit `Environment`. -/

namespace TCPConnector

/-- Modelled from the spec: `Candidate`, "`{host: string, port: integer}`", the element type
`std::pair<const char*, int>` of the `servers` argument. -/
structure Candidate where
  host : String
  port : Int
deriving DecidableEq, Repr

/-- Modelled from the spec: the error kinds of section 7, "`DNSError`, `ConnectionRefused`,
`Unreachable`, `Reset`, `Timeout`", and the `InvalidArgument` kind of a race without candidates. -/
inductive ErrorKind where
  | DNSError
  | ConnectionRefused
  | Unreachable
  | Reset
  | Timeout
  | InvalidArgument
deriving DecidableEq, Repr

/-- Modelled from the spec: the abstract `Stream` capability (`NetworkStream` in the header),
opaque apart from the socket it owns. -/
structure Stream where
  socket : Nat
deriving DecidableEq, Repr

/-- What an endpoint answers to a connection attempt. -/
inductive Response where
  | accepts (stream : Stream)
  | rejects (reason : ErrorKind)
deriving DecidableEq, Repr

/-- How an endpoint behaves: the latency of the attempt and its answer, as in the scenarios of
section 8 ("`(A,80,delay=500ms,fail)`"). -/
structure Behaviour where
  delay : Nat
  response : Response
deriving DecidableEq, Repr

/-- The environment conditions of a call: the behaviour of every endpoint and the implementation
default used for a timeout of `0`. -/
structure Environment where
  endpoint : Candidate → Behaviour
  defaultTimeout : Nat

/-- Modelled from the spec: `AttemptOutcome`, "tagged union `{Success(stream, candidate)} |
{Failure(candidate, reason)}`". -/
inductive AttemptOutcome where
  | Success (stream : Stream) (candidate : Candidate)
  | Failure (candidate : Candidate) (reason : ErrorKind)
deriving DecidableEq, Repr

/-- An outcome together with the instant at which its attempt completes and publishes it. -/
structure Arrival where
  completedAt : Nat
  outcome : AttemptOutcome
deriving DecidableEq, Repr

/-- Modelled from the spec: `RaceResult`, "`{winner} | {AllFailed: ordered sequence of
(Candidate, ErrorKind)} | {TimedOut}`". -/
inductive RaceResult where
  | winner (stream : Stream)
  | AllFailed (reasons : List (Candidate × ErrorKind))
  | TimedOut
deriving DecidableEq, Repr

/-- Modelled from the spec: `Deadline`, "`Deadline = now + overall_timeout`" with `now = 0`; a
timeout of `0` "uses an implementation default". -/
def Deadline (env : Environment) (timeout : Nat) : Nat :=
  if timeout = 0 then env.defaultTimeout else timeout

/-- Modelled from the spec: `SingleAttempt` (section 4.1). The attempt completes with the
endpoint's answer when that comes before the deadline; "on timeout expiry before completion" it
produces `Failure(Timeout)` at the deadline and no stream. -/
def SingleAttempt (env : Environment) (c : Candidate) (deadline : Nat) : Arrival :=
  if (env.endpoint c).delay < deadline then
    match (env.endpoint c).response with
    | Response.accepts s => ⟨(env.endpoint c).delay, AttemptOutcome.Success s c⟩
    | Response.rejects r => ⟨(env.endpoint c).delay, AttemptOutcome.Failure c r⟩
  else
    ⟨deadline, AttemptOutcome.Failure c ErrorKind.Timeout⟩

/-- The candidate an outcome reports on. -/
def candidateOf : Arrival → Candidate
  | ⟨_, AttemptOutcome.Success _ c⟩ => c
  | ⟨_, AttemptOutcome.Failure c _⟩ => c

/-- Dictionary order of host names, character by character. -/
def hostBefore : List Char → List Char → Bool
  | [], [] => false
  | [], _ :: _ => true
  | _ :: _, [] => false
  | x :: xs, y :: ys => decide (x.toNat < y.toNat) || (decide (x = y) && hostBefore xs ys)

/-- A fixed order of the endpoints themselves, by host and then by port. It does not look at
the position of a candidate in the list. -/
def Candidate.before (a b : Candidate) : Prop :=
  hostBefore a.host.data b.host.data = true ∨ (a.host = b.host ∧ a.port < b.port)

instance (a b : Candidate) : Decidable (a.before b) :=
  inferInstanceAs (Decidable (_ ∨ _))

/-- Modelled from the spec: the arrival order of section 4.2, "strictly by arrival (completion)
time", "not by candidate submission order". The outcome that completes earlier arrives first.
The spec names no rule for two outcomes that complete at the same instant; as the order may not
depend on list position, they are taken in the fixed order of their endpoints. -/
def arrivesBefore (a b : Arrival) : Prop :=
  a.completedAt < b.completedAt ∨
    (a.completedAt = b.completedAt ∧ (candidateOf a).before (candidateOf b))

instance (a b : Arrival) : Decidable (arrivesBefore a b) :=
  inferInstanceAs (Decidable (_ ∨ _))

/-- Modelled from the spec: `ResultChannel` (section 4.2), the outcomes still to be taken, in
arrival order. -/
structure ResultChannel where
  arrivals : List Arrival
deriving DecidableEq, Repr

namespace ResultChannel

/-- Modelled from the spec: `publish(outcome)`. "Ordering is strictly by arrival (completion)
time": the outcome goes before the first outcome of the channel that it arrives before
(`arrivesBefore`), so that the channel is in arrival order whatever the order of the `publish`
calls. -/
def publish : List Arrival → Arrival → List Arrival
  | [], a => [a]
  | b :: rest, a =>
    if arrivesBefore a b then a :: b :: rest else b :: publish rest a

/-- Modelled from the spec: `take(deadline)`, "blocks the consumer until either an outcome is
available or `deadline` passes; returns outcome-or-timeout". `none` is the timeout. -/
def take (ch : ResultChannel) (deadline : Nat) : Option (Arrival × ResultChannel) :=
  match ch.arrivals with
  | [] => none
  | a :: rest => if a.completedAt < deadline then some (a, ⟨rest⟩) else none

end ResultChannel

/-- Modelled from the spec: step 2 of the race, "start one `SingleAttempt` concurrently per
candidate, all sharing the `Deadline` and a common `ResultChannel`". Every attempt publishes
its one outcome; the channel then holds the outcomes in arrival order, which by section 5 is the
completion order and on which "candidate submission order has no effect". -/
def launch (env : Environment) (deadline : Nat) (candidates : List Candidate) : ResultChannel :=
  ⟨candidates.foldl (fun ch c => ResultChannel.publish ch (SingleAttempt env c deadline)) []⟩

/-- The stream of a `Success`, which a discarded outcome has closed. -/
def closedStream : Arrival → Option Stream
  | ⟨_, AttemptOutcome.Success s _⟩ => some s
  | ⟨_, AttemptOutcome.Failure _ _⟩ => none

/-- Modelled from the spec: step 4 of the race, the outcomes not taken when the race ends "are
drained asynchronously and any socket they produce is closed". -/
def drain (ch : ResultChannel) : List Stream := ch.arrivals.filterMap closedStream

/-- The candidate and reason of a `Failure`. -/
def failureOf : Arrival → Option (Candidate × ErrorKind)
  | ⟨_, AttemptOutcome.Failure c r⟩ => some (c, r)
  | ⟨_, AttemptOutcome.Success _ _⟩ => none

/-- What one race does: its result, the instant at which the call returns, the streams closed by
draining, the per-candidate diagnostics handed to the `Logger`, and the candidate of the
`Success` recorded as the winner. -/
structure RaceReport where
  result : RaceResult
  returnedAt : Nat
  closed : List Stream
  logged : List (Candidate × ErrorKind)
  wonBy : Option Candidate
deriving DecidableEq, Repr

/-- Modelled from the spec: step 3 of the race, "repeatedly `take` from the channel until
(a) a `Success` arrives, (b) all candidates have reported `Failure`, or (c) the `Deadline`
passes". `outstanding` counts the attempts that have not reported, `failures` the reasons seen
so far in completion order, `now` the instant of the last outcome taken. -/
def raceLoop (deadline : Nat) :
    (outstanding : Nat) → ResultChannel → List (Candidate × ErrorKind) → Nat → RaceReport
  | 0, ch, failures, now => ⟨RaceResult.AllFailed failures, now, drain ch, failures, none⟩
  | outstanding + 1, ch, failures, _ =>
    match ch.take deadline with
    | none => ⟨RaceResult.TimedOut, deadline, drain ch, failures, none⟩
    | some (⟨t, AttemptOutcome.Success s c⟩, rest) =>
      ⟨RaceResult.winner s, t, drain rest, failures, some c⟩
    | some (⟨t, AttemptOutcome.Failure c r⟩, rest) =>
      raceLoop deadline outstanding rest (failures ++ [(c, r)]) t

/-- Modelled from the spec: `ConnectionRace` (section 4.3). "A race with zero candidates is a
caller contract violation and fails fast with an `InvalidArgument` kind". -/
def ConnectionRace (env : Environment) (candidates : List Candidate) (timeout : Nat) :
    Except ErrorKind RaceReport :=
  match candidates with
  | [] => Except.error ErrorKind.InvalidArgument
  | _ :: _ =>
    Except.ok (raceLoop (Deadline env timeout) candidates.length
      (launch env (Deadline env timeout) candidates) [] 0)

/-- Modelled from the spec: `connect_parallel(candidates, timeout) -> Stream-owning-handle |
null` (section 6), "returns null (no throw) when `RaceResult` is `AllFailed` or `TimedOut`".
The body of `TCPConnector::connect_parallel` is not among the sources. -/
def connect_parallel (env : Environment) (servers : List Candidate) (timeout : Nat) :
    Except ErrorKind (Option Stream) :=
  match ConnectionRace env servers timeout with
  | Except.error e => Except.error e
  | Except.ok report =>
    match report.result with
    | RaceResult.winner s => Except.ok (some s)
    | RaceResult.AllFailed _ => Except.ok none
    | RaceResult.TimedOut => Except.ok none

/-- Modelled from the spec: `connect(host, port, timeout) -> Stream-owning-handle | null`
(section 6), the "single-endpoint variant": one `SingleAttempt` bounded by the deadline. The
body of `TCPConnector::connect` is not among the sources. -/
def connect (env : Environment) (server : String) (port : Int) (timeout : Nat) : Option Stream :=
  match (SingleAttempt env ⟨server, port⟩ (Deadline env timeout)).outcome with
  | AttemptOutcome.Success s _ => some s
  | AttemptOutcome.Failure _ _ => none

/-- The scenario of section 8: A fails after 500 ms, B succeeds after 50 ms, C succeeds after
1000 ms; every other endpoint refuses after 10 ms. -/
def scenarioABC : Environment where
  endpoint := fun c =>
    if c.host = "A" then ⟨500, Response.rejects ErrorKind.ConnectionRefused⟩
    else if c.host = "B" then ⟨50, Response.accepts ⟨2⟩⟩
    else if c.host = "C" then ⟨1000, Response.accepts ⟨3⟩⟩
    else ⟨10, Response.rejects ErrorKind.Unreachable⟩
  defaultTimeout := 30000

/-- The candidate list of the first scenario of section 8. -/
def serversABC : List Candidate := [⟨"A", 80⟩, ⟨"B", 80⟩, ⟨"C", 80⟩]

/-- The scenario of section 8: X succeeds after 5 s. -/
def scenarioX : Environment where
  endpoint := fun _ => ⟨5000, Response.accepts ⟨9⟩⟩
  defaultTimeout := 30000

/-- An outcome the race takes and records as a failure: a `Failure` that arrives before the
deadline. -/
def inTimeFailure (deadline : Nat) (a : Arrival) : Prop :=
  a.completedAt < deadline ∧ (failureOf a).isSome = true

/-- Arrival order: by completion instant. -/
def arrivalOrdered (l : List Arrival) : Prop :=
  l.Pairwise (fun a b => a.completedAt ≤ b.completedAt)

end TCPConnector

/-! ### `wpi/StringRef.h` -/

/-- The number of values of `size_t` (64 bits): results of `size_t` arithmetic are taken modulo
this number. -/
def SIZE_MOD : Nat := 18446744073709551616

/-- The outcome of a member function whose body contains `assert`s: the value returned, or the
failure of an assertion (the program stops there). `out_of_fuel` marks a loop cut short by the
iteration bound of the model. -/
inductive Checked (α : Type) where
  | ok (value : α)
  | assertion_failed
  | out_of_fuel
deriving DecidableEq, Repr

/-- Sequencing: a failure ends the computation. -/
def Checked.bind {α β : Type} (x : Checked α) (f : α → Checked β) : Checked β :=
  match x with
  | Checked.ok a => f a
  | Checked.assertion_failed => Checked.assertion_failed
  | Checked.out_of_fuel => Checked.out_of_fuel

/-- A `StringRef` views `Length` characters starting at `Data`; the model keeps the viewed
characters, so that `Length` is the length of `Data`. -/
structure StringRef where
  Data : List UInt8
deriving DecidableEq, Repr

namespace StringRef

/-- The constant `npos = ~size_t(0)`. -/
def npos : Nat := 18446744073709551615

/-- Member `size()`: `return Length;`. -/
def size (s : StringRef) : Nat := s.Data.length

/-- Member `empty()`: `return Length == 0;`. -/
def empty (s : StringRef) : Bool := s.size == 0

/-- Member `substr(Start, N)`:
`Start = min(Start, Length); return StringRef(Data + Start, min(N, Length - Start));`
The subtraction is that of `size_t`. -/
def substr (s : StringRef) (Start N : Nat) : StringRef :=
  ⟨(s.Data.drop (min Start s.size)).take
    (min N ((s.size + SIZE_MOD - min Start s.size) % SIZE_MOD))⟩

/-- Member `slice(Start, End)`:
`Start = min(Start, Length); End = min(max(Start, End), Length);
return StringRef(Data + Start, End - Start);` -/
def slice (s : StringRef) (Start End : Nat) : StringRef :=
  ⟨(s.Data.drop (min Start s.size)).take
    ((min (max (min Start s.size) End) s.size + SIZE_MOD - min Start s.size) % SIZE_MOD)⟩

/-- `Str` occurs in `s` starting at index `i`. -/
def occursAt (s Str : StringRef) (i : Nat) : Prop :=
  i + Str.size ≤ s.size ∧ (s.Data.drop i).take Str.size = Str.Data

instance (s Str : StringRef) (i : Nat) : Decidable (occursAt s Str i) :=
  inferInstanceAs (Decidable (_ ∧ _))

/-- Member `split(StringRef Separator)`. `find` stands for the member
`find(StringRef Str, size_t From)`, which the header declares and does not define; the call
`find(Separator)` uses the default `From = 0`.
`size_t Idx = find(Separator); if (Idx == npos) return (*this, StringRef());
return (slice(0, Idx), slice(Idx + Separator.size(), npos));` -/
def split (find : StringRef → StringRef → Nat → Nat) (s Separator : StringRef) :
    StringRef × StringRef :=
  if find s Separator 0 = npos then (s, ⟨[]⟩)
  else (s.slice 0 (find s Separator 0),
        s.slice ((find s Separator 0 + Separator.size) % SIZE_MOD) npos)

/-- Member `split(char Separator)`: `return split(StringRef(&Separator, 1));`. -/
def split_char (find : StringRef → StringRef → Nat → Nat) (s : StringRef) (Separator : UInt8) :
    StringRef × StringRef :=
  split find s ⟨[Separator]⟩

/-- Scans the indices `i`, `i + 1`, ... (`fuel` of them) for an occurrence of `Str`. -/
def findFrom (s Str : StringRef) : Nat → Nat → Nat
  | 0, _ => npos
  | fuel + 1, i => if occursAt s Str i then i else findFrom s Str fuel (i + 1)

/-- Modelled from the spec: the member `find(StringRef Str, size_t From)`, declared in
`StringRef.h` and defined outside the sources, as its documentation states it: "the index of the
first occurrence of `Str`, or npos if not found". -/
def find (s Str : StringRef) (From : Nat) : Nat :=
  findFrom s Str (s.size + 1 - From) From

/-- The C library function `memchr(p, c, n)` on the bytes that start at `p`: the offset of the
first byte equal to `c` among the first `n` bytes, `none` for the null pointer. -/
def memchr : List UInt8 → UInt8 → Nat → Option Nat
  | _, _, 0 => none
  | [], _, _ + 1 => none
  | b :: rest, c, n + 1 =>
    if b = c then some 0
    else
      match memchr rest c n with
      | some off => some (off + 1)
      | none => none

/-- Member `find(char C, size_t From)`:
`size_t FindBegin = min(From, Length);
if (FindBegin < Length) { if (const void *P = memchr(Data + FindBegin, C, Length - FindBegin))
return static_cast<const char *>(P) - Data; } return npos;` -/
def find_char (s : StringRef) (C : UInt8) (From : Nat) : Nat :=
  if min From s.size < s.size then
    match memchr (s.Data.drop (min From s.size)) C
        ((s.size + SIZE_MOD - min From s.size) % SIZE_MOD) with
    | some off => (min From s.size + off) % SIZE_MOD
    | none => npos
  else npos

/-- The loop of `rfind(char C, size_t From)`:
`while (i != 0) { --i; if (Data[i] == C) return i; } return npos;` -/
def rfind_loop (s : StringRef) (C : UInt8) : Nat → Nat
  | 0 => npos
  | i + 1 => if s.Data[i]? = some C then i else rfind_loop s C i

/-- Member `rfind(char C, size_t From)`: `From = min(From, Length); size_t i = From;` and the
loop. -/
def rfind_char (s : StringRef) (C : UInt8) (From : Nat) : Nat :=
  rfind_loop s C (min From s.size)

/-- Member `find_last_of(char C, size_t From)`: `return rfind(C, From);`. -/
def find_last_of_char (s : StringRef) (C : UInt8) (From : Nat) : Nat :=
  rfind_char s C From

/-- The C library function `memcmp(a, b, n)` on the bytes that start at `a` and at `b`: zero
when the first `n` bytes agree, else the difference of the first pair of differing bytes, read
as `unsigned char` (only its sign is specified by the C standard, and only its sign is used).
Callers pass an `n` that neither buffer is shorter than. -/
def memcmp : List UInt8 → List UInt8 → Nat → Int
  | _, _, 0 => 0
  | x :: xs, y :: ys, n + 1 =>
    if x = y then memcmp xs ys n else (x.toNat : Int) - (y.toNat : Int)
  | _, _, _ + 1 => 0

/-- Private member `compareMemory(Lhs, Rhs, Length)`:
`if (Length == 0) { return 0; } return ::memcmp(Lhs, Rhs, Length);` -/
def compareMemory (Lhs Rhs : List UInt8) (Length : Nat) : Int :=
  if Length = 0 then 0 else memcmp Lhs Rhs Length

/-- Member `compare(StringRef RHS)`:
`if (int Res = compareMemory(Data, RHS.Data, min(Length, RHS.Length)))
return Res < 0 ? -1 : 1;
if (Length == RHS.Length) return 0; return Length < RHS.Length ? -1 : 1;` -/
def compare (s RHS : StringRef) : Int :=
  if compareMemory s.Data RHS.Data (min s.size RHS.size) ≠ 0 then
    (if compareMemory s.Data RHS.Data (min s.size RHS.size) < 0 then -1 else 1)
  else if s.size = RHS.size then 0
  else if s.size < RHS.size then -1 else 1

/-- Lexicographic order as the documentation of `compare` words it, written independently of
the code: bytes are compared as unsigned values and a proper prefix is less than the longer
string. -/
def lexLess : List UInt8 → List UInt8 → Bool
  | [], [] => false
  | [], _ :: _ => true
  | _ :: _, [] => false
  | x :: xs, y :: ys => decide (x.toNat < y.toNat) || (decide (x = y) && lexLess xs ys)

/-- Member `front()`: `assert(!empty()); return Data[0];`. -/
def front (s : StringRef) : Checked UInt8 :=
  match s.Data with
  | [] => Checked.assertion_failed
  | c :: _ => Checked.ok c

/-- Member `drop_front(N)`:
`assert(size() >= N && "Dropping more elements than exist"); return substr(N);`
(`substr(N)` is `substr(N, npos)`). -/
def drop_front (s : StringRef) (N : Nat) : Checked StringRef :=
  if N ≤ s.size then Checked.ok (s.substr N npos) else Checked.assertion_failed

/-- The loop of `find_if`, on the remaining view `S`:
`while (!S.empty()) { if (F(S.front())) return size() - S.size(); S = S.drop_front(); }
return npos;` where `size()` is that of the whole string `s`. -/
def find_if_loop (s : StringRef) (F : UInt8 → Bool) : Nat → StringRef → Checked Nat
  | 0, _ => Checked.out_of_fuel
  | fuel + 1, S =>
    if S.empty then Checked.ok npos
    else
      S.front.bind fun c =>
        if F c then Checked.ok ((s.size + SIZE_MOD - S.size) % SIZE_MOD)
        else (S.drop_front 1).bind fun S' => find_if_loop s F fuel S'

/-- Member `find_if(F, From)`: `StringRef S = drop_front(From);` and the loop, which shortens
`S` at every iteration. -/
def find_if (s : StringRef) (F : UInt8 → Bool) (From : Nat) : Checked Nat :=
  (s.drop_front From).bind fun S => find_if_loop s F (S.size + 1) S

/-- Member `find_if_not(F, From)`: `return find_if([F](char c) { return !F(c); }, From);`. -/
def find_if_not (s : StringRef) (F : UInt8 → Bool) (From : Nat) : Checked Nat :=
  s.find_if (fun c => !F c) From

/-- The answer the documentation of `find_if` describes, written independently of the code: `r`
is the least index `i` with `From <= i < size()` whose character satisfies `P`, or `npos` when
there is no such index. -/
def firstSatisfying (s : StringRef) (P : UInt8 → Bool) (From r : Nat) : Prop :=
  (r = npos ∧ ¬ ∃ i c, From ≤ i ∧ i < s.size ∧ s.Data[i]? = some c ∧ P c = true) ∨
  (r ≠ npos ∧ From ≤ r ∧ r < s.size ∧ (∃ c, s.Data[r]? = some c ∧ P c = true) ∧
    ∀ j, From ≤ j → j < r → ∀ c, s.Data[j]? = some c → P c = false)

/-- Member `take_while(F)`: `return substr(0, find_if_not(F));` (`From` defaults to `0`). -/
def take_while (s : StringRef) (F : UInt8 → Bool) : Checked StringRef :=
  (s.find_if_not F 0).bind fun n => Checked.ok (s.substr 0 n)

/-- Member `take_until(F)`: `return substr(0, find_if(F));`. -/
def take_until (s : StringRef) (F : UInt8 → Bool) : Checked StringRef :=
  (s.find_if F 0).bind fun n => Checked.ok (s.substr 0 n)

/-- Member `startswith(Prefix)`:
`return Length >= Prefix.Length && compareMemory(Data, Prefix.Data, Prefix.Length) == 0;` -/
def startswith (s Prefix : StringRef) : Bool :=
  decide (Prefix.size ≤ s.size) && decide (compareMemory s.Data Prefix.Data Prefix.size = 0)

/-- Member `consume_front(Prefix)`, on the string `*this` it modifies; the result is the value
returned and the new `*this`:
`if (!startswith(Prefix)) return false; *this = drop_front(Prefix.size()); return true;` -/
def consume_front (s Prefix : StringRef) : Checked (Bool × StringRef) :=
  if s.startswith Prefix = false then Checked.ok (false, s)
  else (s.drop_front Prefix.size).bind fun rest => Checked.ok (true, rest)

/-- The character class of decimal digits, used in examples. -/
def isDigit (c : UInt8) : Bool := decide (48 ≤ c.toNat) && decide (c.toNat ≤ 57)

/-- The conversion `static_cast<T>(v)` of a `long long` to a signed integer type `T` of `w`
bits: the value is reduced modulo `2 ^ w` into the range of `T` (two's complement). -/
def signedCast (w : Nat) (v : Int) : Int :=
  (v + 2 ^ (w - 1)) % 2 ^ w - 2 ^ (w - 1)

/-- The value `v` is representable in a signed integer type of `w` bits. -/
def signedRepresentable (w : Nat) (v : Int) : Prop :=
  -(2 ^ (w - 1)) ≤ v ∧ v < 2 ^ (w - 1)

/-- The types `T` without a sign that `getAsInteger` is instantiated with: an unsigned integer
type of `w` bits, or `bool` (named in the comment of the unsigned overload). -/
inductive UnsignedType where
  | bits (w : Nat)
  | bool
deriving DecidableEq, Repr

/-- The conversion `static_cast<T>(v)` of an `unsigned long long` to `T`: reduction modulo
`2 ^ w`, and for `bool` the test `v != 0`. -/
def UnsignedType.cast : UnsignedType → Nat → Nat
  | UnsignedType.bits w, v => v % 2 ^ w
  | UnsignedType.bool, v => if v = 0 then 0 else 1

/-- The value `v` is representable in the type. -/
def UnsignedType.representable : UnsignedType → Nat → Prop
  | UnsignedType.bits w, v => v < 2 ^ w
  | UnsignedType.bool, v => v ≤ 1

/-- The widths the claim covers: at most 64 bits. -/
def UnsignedType.valid : UnsignedType → Prop
  | UnsignedType.bits w => w ≤ 64
  | UnsignedType.bool => True

/-- Member template `getAsInteger<T>(Radix, Result)` for a signed `T` of `w` bits. The helper
`getAsSignedInteger(Str, Radix, LLVal)` is declared in the header and defined elsewhere; it is a
parameter that yields its return value (true for an error) and the content of `LLVal`. The
result is the value returned and the content of `Result` afterwards.
`if (getAsSignedInteger(*this, Radix, LLVal) || static_cast<T>(LLVal) != LLVal) return true;
Result = LLVal; return false;` -/
def getAsInteger_signed (getAsSignedInteger : StringRef → Nat → Bool × Int) (w : Nat)
    (s : StringRef) (Radix : Nat) (Result : Int) : Bool × Int :=
  if (getAsSignedInteger s Radix).1 = true
      ∨ signedCast w (getAsSignedInteger s Radix).2 ≠ (getAsSignedInteger s Radix).2 then
    (true, Result)
  else (false, signedCast w (getAsSignedInteger s Radix).2)

/-- Member template `getAsInteger<T>(Radix, Result)` for a `T` without a sign, with the helper
`getAsUnsignedInteger(Str, Radix, ULLVal)` as a parameter.
`if (getAsUnsignedInteger(*this, Radix, ULLVal) ||
static_cast<unsigned long long>(static_cast<T>(ULLVal)) != ULLVal) return true;
Result = ULLVal; return false;` -/
def getAsInteger_unsigned (getAsUnsignedInteger : StringRef → Nat → Bool × Nat)
    (T : UnsignedType) (s : StringRef) (Radix : Nat) (Result : Nat) : Bool × Nat :=
  if (getAsUnsignedInteger s Radix).1 = true
      ∨ T.cast (getAsUnsignedInteger s Radix).2 % SIZE_MOD ≠ (getAsUnsignedInteger s Radix).2 then
    (true, Result)
  else (false, T.cast (getAsUnsignedInteger s Radix).2)

end StringRef

/-! ## Theorems -/

namespace ConcurrentQueue

variable {T : Type}

theorem run_spec (ops : List (Op T)) :
    ∀ q : ConcurrentQueue T, popsEnabled q.size ops = true →
      ∃ out qf, run q ops = some (out, qf) ∧ out.length = pops ops ∧
        out ++ qf.queue_ = q.queue_ ++ pushed ops := by
  induction ops with
  | nil => intro q _; exact ⟨[], q, rfl, rfl, by simp [pushed]⟩
  | cons op ops ih =>
    intro q h
    cases op with
    | push item =>
      have h' : popsEnabled (q.push item).size ops = true := by
        simpa [popsEnabled, push, size] using h
      obtain ⟨out, qf, hr, hl, hq⟩ := ih _ h'
      exact ⟨out, qf, by simpa [run] using hr, by simpa [pops] using hl,
        by simpa [pushed, push] using hq⟩
    | emplace item =>
      have h' : popsEnabled (q.emplace id item).size ops = true := by
        simpa [popsEnabled, emplace, size] using h
      obtain ⟨out, qf, hr, hl, hq⟩ := ih _ h'
      exact ⟨out, qf, by simpa [run] using hr, by simpa [pops] using hl,
        by simpa [pushed, emplace] using hq⟩
    | pop =>
      obtain ⟨l⟩ := q
      cases l with
      | nil => simp [popsEnabled, size] at h
      | cons x xs =>
        have h' : popsEnabled (ConcurrentQueue.mk xs).size ops = true := by
          simpa [popsEnabled, size] using h
        obtain ⟨out, qf, hr, hl, hq⟩ := ih _ h'
        refine ⟨x :: out, qf, ?_, ?_, ?_⟩
        · simp [run, pop, hr]
        · simp [pops, hl]
        · simpa [pushed] using hq

theorem pop_wait_of_cons (producers : Nat → List T) (x : T) (xs : List T) (wakeups n : Nat) :
    pop_wait producers wakeups n ⟨x :: xs⟩ = some (x, ⟨xs⟩) := by
  cases wakeups <;> simp [pop_wait, pop]

theorem pop_wait_stays_empty (producers : Nat → List T) (h : ∀ n, producers n = []) :
    ∀ wakeups n, pop_wait producers wakeups n ⟨[]⟩ = none := by
  intro wakeups
  induction wakeups with
  | zero => intro n; simp [pop_wait, pop]
  | succ w ih => intro n; simp [pop_wait, pop, h n, pushAll, ih]

theorem pushAll_nil_queue (items : List T) (q : ConcurrentQueue T) :
    (q.pushAll items).queue_ = q.queue_ ++ items := by
  induction items generalizing q with
  | nil => simp [pushAll]
  | cons a l ih =>
    have := ih (q.push a)
    simp only [pushAll, List.foldl_cons] at this ⊢
    rw [this]
    simp [push]

theorem pop_wait_first_arrival (producers : Nat → List T) (x : T) (xs : List T) :
    ∀ k n, (∀ m, m < k → producers (n + m) = []) → producers (n + k) = x :: xs →
      ∀ wakeups, k < wakeups → pop_wait producers wakeups n ⟨[]⟩ = some (x, ⟨xs⟩) := by
  intro k
  induction k with
  | zero =>
    intro n _ hk wakeups hw
    obtain ⟨w, rfl⟩ : ∃ w, wakeups = w + 1 := ⟨wakeups - 1, by omega⟩
    have hq : (ConcurrentQueue.mk ([] : List T)).pushAll (producers n) = ⟨x :: xs⟩ := by
      have := pushAll_nil_queue (producers n) (ConcurrentQueue.mk ([] : List T))
      cases hp : (ConcurrentQueue.mk ([] : List T)).pushAll (producers n) with
      | mk l => simp [hp] at this; simp [this, ← hk]
    simp only [pop_wait, pop, hq]
    exact pop_wait_of_cons producers x xs w (n + 1)
  | succ k ih =>
    intro n hlt hk wakeups hw
    obtain ⟨w, rfl⟩ : ∃ w, wakeups = w + 1 := ⟨wakeups - 1, by omega⟩
    have h0 : producers n = [] := by simpa using hlt 0 (by omega)
    simp only [pop_wait, pop, h0, pushAll, List.foldl_nil]
    apply ih (n + 1)
    · intro m hm
      have := hlt (m + 1) (by omega)
      rwa [show n + 1 + m = n + (m + 1) by omega]
    · rwa [show n + 1 + k = n + (k + 1) by omega]
    · omega

/-- C1: `ConcurrentQueue` is first-in-first-out with at-most-once delivery. For every history of
`push`/`emplace` and `pop` calls on an initially empty queue in which each `pop` is applied when
the queue is non-empty, every call completes, the `k`-th `pop` returns the `k`-th item inserted,
and the items returned are exactly the first `pops` insertions, each once, the remaining ones
still being queued in insertion order. -/
theorem C1_fifo_at_most_once (ops : List (Op T)) (h : popsEnabled 0 ops = true) :
    ∃ out qf, run init ops = some (out, qf) ∧
      out.length = pops ops ∧
      (∀ k, k < pops ops → (pushed ops)[k]?.isSome = true ∧ out[k]? = (pushed ops)[k]?) ∧
      out = (pushed ops).take (pops ops) ∧
      qf.queue_ = (pushed ops).drop (pops ops) := by
  obtain ⟨out, qf, hr, hl, hq⟩ := run_spec ops (init : ConcurrentQueue T) (by simpa [init, size] using h)
  have hq' : out ++ qf.queue_ = pushed ops := by simpa [init] using hq
  have htake : out = (pushed ops).take (pops ops) := by
    rw [← hq', ← hl]; simp
  have hdrop : qf.queue_ = (pushed ops).drop (pops ops) := by
    rw [← hq', ← hl]; simp
  refine ⟨out, qf, hr, hl, ?_, htake, hdrop⟩
  intro k hk
  have hk' : k < out.length := by omega
  have hlen : k < (pushed ops).length := by
    rw [← hq']; simp; omega
  constructor
  · simp [List.getElem?_eq_getElem hlen]
  · rw [← hq', List.getElem?_append_left hk']

/-- Witness for C1: two insertions, a removal, an `emplace`, two removals. -/
theorem C1_fifo_at_most_once_witness :
    popsEnabled 0 [Op.push 7, Op.push 8, Op.pop, Op.emplace 9, Op.pop, Op.pop] = true ∧
    ∃ out qf, run init [Op.push 7, Op.push 8, Op.pop, Op.emplace 9, Op.pop, Op.pop]
        = some (out, qf) ∧
      out.length = pops [Op.push 7, Op.push 8, Op.pop, Op.emplace 9, Op.pop, Op.pop] ∧
      (∀ k, k < pops [Op.push 7, Op.push 8, Op.pop, Op.emplace 9, Op.pop, Op.pop] →
        (pushed [Op.push 7, Op.push 8, Op.pop, Op.emplace 9, Op.pop, Op.pop])[k]?.isSome = true ∧
        out[k]? = (pushed [Op.push 7, Op.push 8, Op.pop, Op.emplace 9, Op.pop, Op.pop])[k]?) ∧
      out = (pushed [Op.push 7, Op.push 8, Op.pop, Op.emplace 9, Op.pop, Op.pop]).take
        (pops [Op.push 7, Op.push 8, Op.pop, Op.emplace 9, Op.pop, Op.pop]) ∧
      qf.queue_ = (pushed [Op.push 7, Op.push 8, Op.pop, Op.emplace 9, Op.pop, Op.pop]).drop
        (pops [Op.push 7, Op.push 8, Op.pop, Op.emplace 9, Op.pop, Op.pop]) :=
  ⟨by decide,
   C1_fifo_at_most_once [Op.push 7, Op.push 8, Op.pop, Op.emplace 9, Op.pop, Op.pop] (by decide)⟩

/-- C3 (as stated, refuted): on the empty queue that stays empty, `pop` has not returned after
any number of wake-ups, so no deadline makes it return a timeout indication. -/
theorem C3_counterexample :
    ¬ ∃ wakeups : Nat,
      (pop_wait (fun _ => ([] : List Nat)) wakeups 0 (init : ConcurrentQueue Nat)).isSome = true := by
  rintro ⟨w, hw⟩
  simp [init, pop_wait_stays_empty (fun _ => ([] : List Nat)) (fun _ => rfl) w 0] at hw

/-- C3 (amended): `pop` takes no deadline and has no timeout result. On a non-empty queue it
returns the front item at once; on an empty queue it returns the first item pushed, at the wake-up
that follows that push; and on a queue that stays empty it never returns. -/
theorem C3_pop_blocks_until_item (producers : Nat → List T) :
    (∀ (x : T) (xs : List T) (wakeups n : Nat),
      pop_wait producers wakeups n ⟨x :: xs⟩ = some (x, ⟨xs⟩)) ∧
    (∀ (k : Nat) (x : T) (xs : List T), (∀ m, m < k → producers m = []) →
      producers k = x :: xs →
      ∀ wakeups, k < wakeups → pop_wait producers wakeups 0 init = some (x, ⟨xs⟩)) ∧
    ((∀ n, producers n = []) → ∀ wakeups, pop_wait producers wakeups 0 init = none) := by
  refine ⟨fun x xs w n => pop_wait_of_cons producers x xs w n, ?_, ?_⟩
  · intro k x xs hlt hk w hw
    exact pop_wait_first_arrival producers x xs k 0 (by simpa using hlt) (by simpa using hk) w hw
  · intro h w
    exact pop_wait_stays_empty producers h w 0

/-- C4: publishing never blocks or fails and only appends. For every queue state `q` (of any
size) and item `x`, `push` and `emplace` complete with the queue equal to `q` followed by `x`:
the size grows by exactly one and every item already queued keeps its value and position. -/
theorem C4_push_only_appends (q : ConcurrentQueue T) (x : T) :
    (q.push x).queue_ = q.queue_ ++ [x] ∧
    (q.push x).size = q.size + 1 ∧
    (∀ i, i < q.size → (q.push x).queue_[i]? = q.queue_[i]?) ∧
    (q.push x).queue_[q.size]? = some x ∧
    (∀ (Args : Type) (ctor : Args → T) (args : Args), ctor args = x →
      q.emplace ctor args = q.push x) ∧
    run q [Op.push x] = some ([], q.push x) ∧
    run q [Op.emplace x] = some ([], q.push x) := by
  refine ⟨rfl, by simp [push, size], ?_, by simp [push, size], ?_, rfl, rfl⟩
  · intro i hi
    simp only [push]
    exact List.getElem?_append_left hi
  · intro Args ctor args h
    simp [emplace, push, h]

end ConcurrentQueue

namespace TCPConnector

open ResultChannel

theorem mem_publish (x a : Arrival) (l : List Arrival) :
    x ∈ publish l a ↔ x = a ∨ x ∈ l := by
  induction l with
  | nil => simp [publish]
  | cons b rest ih =>
    unfold publish
    split
    · simp
    · simp only [List.mem_cons, ih]; tauto

theorem length_publish (a : Arrival) (l : List Arrival) :
    (publish l a).length = l.length + 1 := by
  induction l with
  | nil => simp [publish]
  | cons b rest ih =>
    unfold publish
    split <;> simp [ih]

theorem arrivalOrdered_publish (a : Arrival) (l : List Arrival) (h : arrivalOrdered l) :
    arrivalOrdered (publish l a) := by
  induction l with
  | nil => simp [publish, arrivalOrdered]
  | cons b rest ih =>
    unfold arrivalOrdered at h ih ⊢
    rw [List.pairwise_cons] at h
    unfold publish
    split
    · rename_i hlt
      have hle : a.completedAt ≤ b.completedAt := by
        rcases hlt with h1 | ⟨h1, _⟩ <;> omega
      refine List.pairwise_cons.mpr ⟨?_, List.pairwise_cons.mpr h⟩
      intro x hx
      rcases List.mem_cons.mp hx with rfl | hx
      · exact hle
      · have := h.1 x hx; omega
    · rename_i hge
      have hle : b.completedAt ≤ a.completedAt := by
        by_contra hlt
        exact hge (Or.inl (by omega))
      refine List.pairwise_cons.mpr ⟨?_, ih h.2⟩
      intro x hx
      rcases (mem_publish x a rest).mp hx with rfl | hx
      · exact hle
      · exact h.1 x hx

theorem launch_foldl (env : Environment) (deadline : Nat) (cs : List Candidate) :
    ∀ acc : List Arrival,
      (∀ x, x ∈ cs.foldl (fun ch c => publish ch (SingleAttempt env c deadline)) acc ↔
        x ∈ acc ∨ ∃ c ∈ cs, x = SingleAttempt env c deadline) ∧
      (cs.foldl (fun ch c => publish ch (SingleAttempt env c deadline)) acc).length
        = acc.length + cs.length ∧
      (arrivalOrdered acc →
        arrivalOrdered (cs.foldl (fun ch c => publish ch (SingleAttempt env c deadline)) acc)) := by
  induction cs with
  | nil => intro acc; simp
  | cons c cs ih =>
    intro acc
    obtain ⟨hm, hl, hs⟩ := ih (publish acc (SingleAttempt env c deadline))
    refine ⟨?_, ?_, ?_⟩
    · intro x
      simp only [List.foldl_cons, hm, mem_publish, List.mem_cons, exists_eq_or_imp]
      tauto
    · simp only [List.foldl_cons, hl, length_publish, List.length_cons]; omega
    · intro h
      exact hs (arrivalOrdered_publish _ _ h)

theorem mem_launch (env : Environment) (deadline : Nat) (cs : List Candidate) (x : Arrival) :
    x ∈ (launch env deadline cs).arrivals ↔ ∃ c ∈ cs, x = SingleAttempt env c deadline := by
  have := (launch_foldl env deadline cs []).1 x
  simpa [launch] using this

theorem length_launch (env : Environment) (deadline : Nat) (cs : List Candidate) :
    (launch env deadline cs).arrivals.length = cs.length := by
  have := (launch_foldl env deadline cs []).2.1
  simpa [launch] using this

theorem arrivalOrdered_launch (env : Environment) (deadline : Nat) (cs : List Candidate) :
    arrivalOrdered (launch env deadline cs).arrivals :=
  (launch_foldl env deadline cs []).2.2 (by simp [arrivalOrdered])

theorem SingleAttempt_accepts (env : Environment) (c : Candidate) (deadline : Nat) (s : Stream)
    (hr : (env.endpoint c).response = Response.accepts s) (hd : (env.endpoint c).delay < deadline) :
    SingleAttempt env c deadline = ⟨(env.endpoint c).delay, AttemptOutcome.Success s c⟩ := by
  simp [SingleAttempt, hr, hd]

theorem SingleAttempt_success_inv (env : Environment) (c w : Candidate) (deadline t : Nat)
    (s : Stream) (h : SingleAttempt env c deadline = ⟨t, AttemptOutcome.Success s w⟩) :
    w = c ∧ t = (env.endpoint c).delay ∧ (env.endpoint c).delay < deadline ∧
      (env.endpoint c).response = Response.accepts s := by
  unfold SingleAttempt at h
  split at h
  · rename_i hd
    split at h
    · rename_i s' hs
      injection h with h1 h2
      injection h2 with h3 h4
      subst h3 h4
      exact ⟨rfl, h1.symm, hd, hs⟩
    · injection h with h1 h2
      cases h2
  · injection h with h1 h2
    cases h2

theorem SingleAttempt_failure_inv (env : Environment) (c w : Candidate) (deadline t : Nat)
    (r : ErrorKind) (h : SingleAttempt env c deadline = ⟨t, AttemptOutcome.Failure w r⟩)
    (ht : t < deadline) :
    w = c ∧ t = (env.endpoint c).delay ∧ (env.endpoint c).delay < deadline ∧
      (env.endpoint c).response = Response.rejects r := by
  unfold SingleAttempt at h
  split at h
  · rename_i hd
    split at h
    · injection h with h1 h2
      cases h2
    · rename_i r' hs
      injection h with h1 h2
      injection h2 with h3 h4
      subst h3 h4
      exact ⟨rfl, h1.symm, hd, hs⟩
  · injection h with h1 h2
    omega

theorem SingleAttempt_late (env : Environment) (c : Candidate) (deadline : Nat)
    (h : deadline ≤ (SingleAttempt env c deadline).completedAt) :
    deadline ≤ (env.endpoint c).delay := by
  unfold SingleAttempt at h
  split at h
  · rename_i hd
    split at h <;> simp at h <;> omega
  · omega

theorem raceLoop_winner (deadline t : Nat) (s : Stream) (w : Candidate) (post : List Arrival)
    (ht : t < deadline) :
    ∀ (pre : List Arrival) (n : Nat) (failures : List (Candidate × ErrorKind)) (now : Nat),
      (∀ a ∈ pre, inTimeFailure deadline a) → pre.length < n →
      raceLoop deadline n ⟨pre ++ ⟨t, AttemptOutcome.Success s w⟩ :: post⟩ failures now
        = ⟨RaceResult.winner s, t, post.filterMap closedStream,
            failures ++ pre.filterMap failureOf, some w⟩ := by
  intro pre
  induction pre with
  | nil =>
    intro n failures now _ hn
    obtain ⟨m, rfl⟩ : ∃ m, n = m + 1 := ⟨n - 1, by simp at hn; omega⟩
    simp [raceLoop, take, ht, drain]
  | cons a pre ih =>
    intro n failures now hpre hn
    obtain ⟨m, rfl⟩ : ∃ m, n = m + 1 := ⟨n - 1, by simp at hn; omega⟩
    have ha := hpre a (by simp)
    obtain ⟨ta, oa⟩ := a
    cases oa with
    | Success s' c' => simp [inTimeFailure, failureOf] at ha
    | Failure c r =>
      have hta : ta < deadline := ha.1
      have := ih m (failures ++ [(c, r)]) ta (fun x hx => hpre x (by simp [hx]))
        (by simp at hn; omega)
      simp only [List.cons_append, raceLoop, take, hta, if_true, this]
      simp [failureOf]

theorem raceLoop_timedOut (deadline : Nat) (b : Arrival) (post : List Arrival)
    (hb : deadline ≤ b.completedAt) :
    ∀ (pre : List Arrival) (n : Nat) (failures : List (Candidate × ErrorKind)) (now : Nat),
      (∀ a ∈ pre, inTimeFailure deadline a) → pre.length < n →
      raceLoop deadline n ⟨pre ++ b :: post⟩ failures now
        = ⟨RaceResult.TimedOut, deadline, (b :: post).filterMap closedStream,
            failures ++ pre.filterMap failureOf, none⟩ := by
  intro pre
  induction pre with
  | nil =>
    intro n failures now _ hn
    obtain ⟨m, rfl⟩ : ∃ m, n = m + 1 := ⟨n - 1, by simp at hn; omega⟩
    have : ¬ b.completedAt < deadline := by omega
    simp [raceLoop, take, this, drain]
  | cons a pre ih =>
    intro n failures now hpre hn
    obtain ⟨m, rfl⟩ : ∃ m, n = m + 1 := ⟨n - 1, by simp at hn; omega⟩
    have ha := hpre a (by simp)
    obtain ⟨ta, oa⟩ := a
    cases oa with
    | Success s' c' => simp [inTimeFailure, failureOf] at ha
    | Failure c r =>
      have hta : ta < deadline := ha.1
      have := ih m (failures ++ [(c, r)]) ta (fun x hx => hpre x (by simp [hx]))
        (by simp at hn; omega)
      simp only [List.cons_append, raceLoop, take, hta, if_true, this]
      simp [failureOf]

theorem raceLoop_allFailed (deadline : Nat) :
    ∀ (pre : List Arrival) (failures : List (Candidate × ErrorKind)) (now : Nat),
      (∀ a ∈ pre, inTimeFailure deadline a) →
      ∃ t, raceLoop deadline pre.length ⟨pre⟩ failures now
        = ⟨RaceResult.AllFailed (failures ++ pre.filterMap failureOf), t, [],
            failures ++ pre.filterMap failureOf, none⟩ := by
  intro pre
  induction pre with
  | nil =>
    intro failures now _
    exact ⟨now, by simp [raceLoop, drain]⟩
  | cons a pre ih =>
    intro failures now hpre
    have ha := hpre a (by simp)
    obtain ⟨ta, oa⟩ := a
    cases oa with
    | Success s' c' => simp [inTimeFailure, failureOf] at ha
    | Failure c r =>
      have hta : ta < deadline := ha.1
      obtain ⟨t, ht⟩ := ih (failures ++ [(c, r)]) ta (fun x hx => hpre x (by simp [hx]))
      refine ⟨t, ?_⟩
      simp only [List.length_cons, raceLoop, take, hta, if_true, ht]
      simp [failureOf]

theorem arrivals_shape (deadline : Nat) (arr : List Arrival) :
    ∃ pre, (∀ a ∈ pre, inTimeFailure deadline a) ∧
      (arr = pre ∨
       (∃ t s w post, t < deadline ∧ arr = pre ++ ⟨t, AttemptOutcome.Success s w⟩ :: post) ∨
       (∃ b post, deadline ≤ b.completedAt ∧ arr = pre ++ b :: post)) := by
  induction arr with
  | nil => exact ⟨[], by simp, Or.inl rfl⟩
  | cons a arr ih =>
    by_cases hlate : deadline ≤ a.completedAt
    · exact ⟨[], by simp, Or.inr (Or.inr ⟨a, arr, hlate, rfl⟩)⟩
    · obtain ⟨ta, oa⟩ := a
      cases oa with
      | Success s w =>
        exact ⟨[], by simp, Or.inr (Or.inl ⟨ta, s, w, arr, by simpa using hlate, rfl⟩)⟩
      | Failure c r =>
        obtain ⟨pre, hpre, hshape⟩ := ih
        refine ⟨⟨ta, AttemptOutcome.Failure c r⟩ :: pre, ?_, ?_⟩
        · intro x hx
          rcases List.mem_cons.mp hx with rfl | hx
          · exact ⟨by simpa using hlate, by simp [failureOf]⟩
          · exact hpre x hx
        · rcases hshape with h | ⟨t, s, w, post, ht, h⟩ | ⟨b, post, hb, h⟩
          · exact Or.inl (by rw [h])
          · exact Or.inr (Or.inl ⟨t, s, w, post, ht, by rw [h]; rfl⟩)
          · exact Or.inr (Or.inr ⟨b, post, hb, by rw [h]; rfl⟩)

/-- The three ways a race over a non-empty candidate list ends, read off the arrival order. -/
theorem race_shape (env : Environment) (servers : List Candidate) (timeout : Nat)
    (hne : servers ≠ []) :
    ∃ pre, (∀ a ∈ pre, inTimeFailure (Deadline env timeout) a) ∧
      (((launch env (Deadline env timeout) servers).arrivals = pre ∧
        ∃ t, ConnectionRace env servers timeout = Except.ok
          ⟨RaceResult.AllFailed (pre.filterMap failureOf), t, [], pre.filterMap failureOf, none⟩) ∨
       (∃ t s w post, t < Deadline env timeout ∧
        (launch env (Deadline env timeout) servers).arrivals
          = pre ++ ⟨t, AttemptOutcome.Success s w⟩ :: post ∧
        ConnectionRace env servers timeout = Except.ok
          ⟨RaceResult.winner s, t, post.filterMap closedStream, pre.filterMap failureOf,
            some w⟩) ∨
       (∃ b post, Deadline env timeout ≤ b.completedAt ∧
        (launch env (Deadline env timeout) servers).arrivals = pre ++ b :: post ∧
        ConnectionRace env servers timeout = Except.ok
          ⟨RaceResult.TimedOut, Deadline env timeout, (b :: post).filterMap closedStream,
            pre.filterMap failureOf, none⟩)) := by
  obtain ⟨c, cs, rfl⟩ : ∃ c cs, servers = c :: cs := by
    cases servers with
    | nil => exact absurd rfl hne
    | cons c cs => exact ⟨c, cs, rfl⟩
  have hlen := length_launch env (Deadline env timeout) (c :: cs)
  obtain ⟨pre, hpre, hshape⟩ :=
    arrivals_shape (Deadline env timeout) (launch env (Deadline env timeout) (c :: cs)).arrivals
  refine ⟨pre, hpre, ?_⟩
  have hch : launch env (Deadline env timeout) (c :: cs)
      = ⟨(launch env (Deadline env timeout) (c :: cs)).arrivals⟩ := rfl
  rcases hshape with h | ⟨t, s, w, post, ht, h⟩ | ⟨b, post, hb, h⟩
  · left
    refine ⟨h, ?_⟩
    obtain ⟨t, ht⟩ := raceLoop_allFailed (Deadline env timeout) pre [] 0 hpre
    refine ⟨t, ?_⟩
    have hl : (c :: cs).length = pre.length := by rw [← hlen, h]
    simp only [ConnectionRace]
    rw [hl, hch, h, ht]
    simp
  · right; left
    refine ⟨t, s, w, post, ht, h, ?_⟩
    have hl : pre.length < (c :: cs).length := by rw [← hlen, h]; simp
    have := raceLoop_winner (Deadline env timeout) t s w post ht pre (c :: cs).length [] 0 hpre hl
    simp only [ConnectionRace]
    rw [hch, h, this]
    simp
  · right; right
    refine ⟨b, post, hb, h, ?_⟩
    have hl : pre.length < (c :: cs).length := by rw [← hlen, h]; simp
    have := raceLoop_timedOut (Deadline env timeout) b post hb pre (c :: cs).length [] 0 hpre hl
    simp only [ConnectionRace]
    rw [hch, h, this]
    simp

theorem arrivalOrdered_split (pre post : List Arrival) (x : Arrival)
    (h : arrivalOrdered (pre ++ x :: post)) :
    ∀ y ∈ post, x.completedAt ≤ y.completedAt := by
  unfold arrivalOrdered at h
  rw [List.pairwise_append] at h
  exact (List.pairwise_cons.mp h.2.1).1

/-- When some candidate connects before the deadline, the race is won by the first `Success` of
the channel, which belongs to a candidate of least latency among the connecting ones. -/
theorem race_first_success (env : Environment) (servers : List Candidate) (timeout : Nat)
    (h : ∃ c ∈ servers, ∃ s, (env.endpoint c).response = Response.accepts s ∧
      (env.endpoint c).delay < Deadline env timeout) :
    ∃ w ∈ servers, ∃ s pre post,
      (env.endpoint w).response = Response.accepts s ∧
      (env.endpoint w).delay < Deadline env timeout ∧
      (∀ c ∈ servers, ∀ s', (env.endpoint c).response = Response.accepts s' →
        (env.endpoint w).delay ≤ (env.endpoint c).delay) ∧
      (∀ a ∈ pre, inTimeFailure (Deadline env timeout) a) ∧
      (launch env (Deadline env timeout) servers).arrivals
        = pre ++ ⟨(env.endpoint w).delay, AttemptOutcome.Success s w⟩ :: post ∧
      ConnectionRace env servers timeout = Except.ok
        ⟨RaceResult.winner s, (env.endpoint w).delay, post.filterMap closedStream,
          pre.filterMap failureOf, some w⟩ := by
  obtain ⟨c, hc, sc, hresp, hdelay⟩ := h
  have hne : servers ≠ [] := List.ne_nil_of_mem hc
  have hord := arrivalOrdered_launch env (Deadline env timeout) servers
  have hmem : (⟨(env.endpoint c).delay, AttemptOutcome.Success sc c⟩ : Arrival)
      ∈ (launch env (Deadline env timeout) servers).arrivals := by
    rw [mem_launch]
    exact ⟨c, hc, (SingleAttempt_accepts env c _ sc hresp hdelay).symm⟩
  obtain ⟨pre, hpre, hshape⟩ := race_shape env servers timeout hne
  have hnotpre : ∀ (t : Nat) (s : Stream) (x : Candidate),
      (⟨t, AttemptOutcome.Success s x⟩ : Arrival) ∉ pre := by
    intro t s x hx
    have := (hpre _ hx).2
    simp [failureOf] at this
  rcases hshape with ⟨harr, _⟩ | ⟨t, s, w, post, ht, harr, hrace⟩ | ⟨b, post, hb, harr, _⟩
  · rw [harr] at hmem
    exact absurd hmem (hnotpre _ _ _)
  · have hwin : (⟨t, AttemptOutcome.Success s w⟩ : Arrival)
        ∈ (launch env (Deadline env timeout) servers).arrivals := by
      rw [harr]; simp
    obtain ⟨w', hw', hsa⟩ := (mem_launch env _ servers _).mp hwin
    obtain ⟨rfl, rfl, hwd, hwr⟩ := SingleAttempt_success_inv env w' w _ t s hsa.symm
    refine ⟨w, hw', s, pre, post, hwr, hwd, ?_, hpre, harr, hrace⟩
    intro c2 hc2 s2 hr2
    by_cases hd2 : (env.endpoint c2).delay < Deadline env timeout
    · have hm2 : (⟨(env.endpoint c2).delay, AttemptOutcome.Success s2 c2⟩ : Arrival)
          ∈ (launch env (Deadline env timeout) servers).arrivals := by
        rw [mem_launch]
        exact ⟨c2, hc2, (SingleAttempt_accepts env c2 _ s2 hr2 hd2).symm⟩
      rw [harr, List.mem_append, List.mem_cons] at hm2
      rcases hm2 with hm2 | hm2 | hm2
      · exact absurd hm2 (hnotpre _ _ _)
      · injection hm2 with h1 _
        omega
      · have := arrivalOrdered_split pre post _ (harr ▸ hord) _ hm2
        simpa using this
    · omega
  · rw [harr, List.mem_append, List.mem_cons] at hmem
    rcases hmem with hmem | hmem | hmem
    · exact absurd hmem (hnotpre _ _ _)
    · rw [← hmem] at hb
      simp at hb
      omega
    · have := arrivalOrdered_split pre post _ (harr ▸ hord) _ hmem
      simp at this
      omega

/-- When no candidate connects before the deadline, a race over a non-empty list ends
`AllFailed` or `TimedOut`, without a winner. -/
theorem race_no_success (env : Environment) (servers : List Candidate) (timeout : Nat)
    (hne : servers ≠ [])
    (h : ∀ c ∈ servers, ∀ s, (env.endpoint c).response = Response.accepts s →
      Deadline env timeout ≤ (env.endpoint c).delay) :
    ∃ report, ConnectionRace env servers timeout = Except.ok report ∧ report.wonBy = none ∧
      (report.result = RaceResult.TimedOut ∨
        ∃ reasons, report.result = RaceResult.AllFailed reasons) := by
  obtain ⟨pre, hpre, hshape⟩ := race_shape env servers timeout hne
  rcases hshape with ⟨_, t, hrace⟩ | ⟨t, s, w, post, ht, harr, _⟩ | ⟨b, post, _, _, hrace⟩
  · exact ⟨_, hrace, rfl, Or.inr ⟨_, rfl⟩⟩
  · exfalso
    have hwin : (⟨t, AttemptOutcome.Success s w⟩ : Arrival)
        ∈ (launch env (Deadline env timeout) servers).arrivals := by
      rw [harr]; simp
    obtain ⟨w', hw', hsa⟩ := (mem_launch env _ servers _).mp hwin
    obtain ⟨rfl, rfl, hwd, hwr⟩ := SingleAttempt_success_inv env w' w _ t s hsa.symm
    have := h w hw' s hwr
    omega
  · exact ⟨_, hrace, rfl, Or.inl rfl⟩

theorem length_filterMap_failureOf (deadline : Nat) (pre : List Arrival)
    (h : ∀ a ∈ pre, inTimeFailure deadline a) :
    (pre.filterMap failureOf).length = pre.length := by
  induction pre with
  | nil => rfl
  | cons a pre ih =>
    have ha := (h a (by simp)).2
    obtain ⟨ta, oa⟩ := a
    cases oa with
    | Success s c => simp [failureOf] at ha
    | Failure c r =>
      simp [failureOf, List.filterMap_cons, ih (fun x hx => h x (by simp [hx]))]

theorem mem_filterMap_failureOf (c : Candidate) (r : ErrorKind) (pre : List Arrival) :
    (c, r) ∈ pre.filterMap failureOf ↔ ∃ t, (⟨t, AttemptOutcome.Failure c r⟩ : Arrival) ∈ pre := by
  rw [List.mem_filterMap]
  constructor
  · rintro ⟨⟨t, o⟩, hmem, ho⟩
    cases o with
    | Success s c' => simp [failureOf] at ho
    | Failure c' r' =>
      simp only [failureOf, Option.some.injEq, Prod.mk.injEq] at ho
      obtain ⟨rfl, rfl⟩ := ho
      exact ⟨t, hmem⟩
  · rintro ⟨t, hmem⟩
    exact ⟨_, hmem, rfl⟩

/-- C2: `connect_parallel` returns the stream of the first `Success` taken from the result
channel. Whenever some candidate connects before the deadline, the stream returned is that of a
connecting candidate `w` of least latency, the call returns at `w`'s completion instant (it does
not wait for the other attempts), every outcome taken before it was a `Failure`, and every
`Success` arriving after it is closed, in particular that of any other candidate connecting
before the deadline. -/
theorem C2_first_success_wins (env : Environment) (servers : List Candidate) (timeout : Nat)
    (h : ∃ c ∈ servers, ∃ s, (env.endpoint c).response = Response.accepts s ∧
      (env.endpoint c).delay < Deadline env timeout) :
    ∃ w ∈ servers, ∃ s report pre post,
      (env.endpoint w).response = Response.accepts s ∧
      (env.endpoint w).delay < Deadline env timeout ∧
      (∀ c ∈ servers, ∀ s', (env.endpoint c).response = Response.accepts s' →
        (env.endpoint w).delay ≤ (env.endpoint c).delay) ∧
      connect_parallel env servers timeout = Except.ok (some s) ∧
      ConnectionRace env servers timeout = Except.ok report ∧
      report.wonBy = some w ∧
      report.returnedAt = (env.endpoint w).delay ∧
      (launch env (Deadline env timeout) servers).arrivals
        = pre ++ ⟨(env.endpoint w).delay, AttemptOutcome.Success s w⟩ :: post ∧
      (∀ a ∈ pre, (failureOf a).isSome = true) ∧
      report.closed = post.filterMap closedStream ∧
      (∀ c ∈ servers, c ≠ w → ∀ s', (env.endpoint c).response = Response.accepts s' →
        (env.endpoint c).delay < Deadline env timeout → s' ∈ report.closed) := by
  obtain ⟨w, hw, s, pre, post, hwr, hwd, hmin, hpre, harr, hrace⟩ :=
    race_first_success env servers timeout h
  refine ⟨w, hw, s, _, pre, post, hwr, hwd, hmin, ?_, hrace, rfl, rfl, harr,
    fun a ha => (hpre a ha).2, rfl, ?_⟩
  · simp [connect_parallel, hrace]
  · intro c hc hcw s' hr hd
    have hm : (⟨(env.endpoint c).delay, AttemptOutcome.Success s' c⟩ : Arrival)
        ∈ (launch env (Deadline env timeout) servers).arrivals := by
      rw [mem_launch]
      exact ⟨c, hc, (SingleAttempt_accepts env c _ s' hr hd).symm⟩
    rw [harr, List.mem_append, List.mem_cons] at hm
    rcases hm with hm | hm | hm
    · have := (hpre _ hm).2
      simp [failureOf] at this
    · injection hm with _ h2
      injection h2 with _ h3
      exact absurd h3 hcw
    · exact List.mem_filterMap.mpr ⟨_, hm, rfl⟩

/-- Witness for C2, the scenario of section 8: A fails at 500 ms, B succeeds at 50 ms, C succeeds
at 1000 ms, timeout 2 s. The call returns B's stream at instant 50 and C's socket is closed. -/
theorem C2_first_success_wins_witness :
    connect_parallel scenarioABC serversABC 2000 = Except.ok (some ⟨2⟩) ∧
    ConnectionRace scenarioABC serversABC 2000
      = Except.ok ⟨RaceResult.winner ⟨2⟩, 50, [⟨3⟩], [], some ⟨"B", 80⟩⟩ ∧
    ∃ w ∈ serversABC, ∃ s report pre post,
      (scenarioABC.endpoint w).response = Response.accepts s ∧
      (scenarioABC.endpoint w).delay < Deadline scenarioABC 2000 ∧
      (∀ c ∈ serversABC, ∀ s', (scenarioABC.endpoint c).response = Response.accepts s' →
        (scenarioABC.endpoint w).delay ≤ (scenarioABC.endpoint c).delay) ∧
      connect_parallel scenarioABC serversABC 2000 = Except.ok (some s) ∧
      ConnectionRace scenarioABC serversABC 2000 = Except.ok report ∧
      report.wonBy = some w ∧
      report.returnedAt = (scenarioABC.endpoint w).delay ∧
      (launch scenarioABC (Deadline scenarioABC 2000) serversABC).arrivals
        = pre ++ ⟨(scenarioABC.endpoint w).delay, AttemptOutcome.Success s w⟩ :: post ∧
      (∀ a ∈ pre, (failureOf a).isSome = true) ∧
      report.closed = post.filterMap closedStream ∧
      (∀ c ∈ serversABC, c ≠ w → ∀ s', (scenarioABC.endpoint c).response = Response.accepts s' →
        (scenarioABC.endpoint c).delay < Deadline scenarioABC 2000 → s' ∈ report.closed) :=
  ⟨rfl, rfl, C2_first_success_wins scenarioABC serversABC 2000
    ⟨⟨"B", 80⟩, by decide, ⟨2⟩, rfl, by decide⟩⟩

/-- C5: `connect_parallel` called with an empty candidate list fails fast with the
`InvalidArgument` error kind; it does not return null. -/
theorem C5_empty_candidates_invalid_argument (env : Environment) (timeout : Nat) :
    connect_parallel env [] timeout = Except.error ErrorKind.InvalidArgument ∧
    connect_parallel env [] timeout ≠ Except.ok none := by
  constructor
  · rfl
  · intro h
    cases h

/-- C6: for every host, port, timeout and environment, `connect_parallel` on the one-element
candidate list `[(host, port)]` produces the same result (the established stream or null) as
`connect(host, port, timeout)`. -/
theorem C6_single_candidate_same_as_connect (env : Environment) (server : String) (port : Int)
    (timeout : Nat) :
    connect_parallel env [⟨server, port⟩] timeout
      = Except.ok (connect env server port timeout) := by
  simp only [connect_parallel, ConnectionRace, launch, List.foldl_cons, List.foldl_nil, publish,
    List.length_singleton, raceLoop, take, connect, SingleAttempt]
  by_cases hd : (env.endpoint ⟨server, port⟩).delay < Deadline env timeout
  · cases hr : (env.endpoint ⟨server, port⟩).response with
    | accepts s => simp [hd, hr]
    | rejects r => simp [hd, hr, raceLoop]
  · simp [hd]

/-- C7: `connect_parallel` returns null without throwing whenever the race ends `AllFailed` or
`TimedOut`. `AllFailed` means that every candidate reported a failure before the deadline;
its reasons, in completion order, are exactly what the `Logger` received. `TimedOut` means that
no candidate connected before the deadline and some attempt was still outstanding at the
deadline. In both cases the value returned is null and carries no reason. -/
theorem C7_null_when_no_winner (env : Environment) (servers : List Candidate) (timeout : Nat)
    (report : RaceReport)
    (hrace : ConnectionRace env servers timeout = Except.ok report)
    (hres : report.result = RaceResult.TimedOut ∨
      ∃ reasons, report.result = RaceResult.AllFailed reasons) :
    connect_parallel env servers timeout = Except.ok none ∧
    (∀ reasons, report.result = RaceResult.AllFailed reasons →
      report.logged = reasons ∧ reasons.length = servers.length ∧
      (∀ c ∈ servers, ∃ r, (c, r) ∈ reasons) ∧
      (∀ c r, (c, r) ∈ reasons → c ∈ servers ∧
        (env.endpoint c).response = Response.rejects r ∧
        (env.endpoint c).delay < Deadline env timeout)) ∧
    (report.result = RaceResult.TimedOut →
      (∃ c ∈ servers, Deadline env timeout ≤ (env.endpoint c).delay) ∧
      (∀ c ∈ servers, ∀ s, (env.endpoint c).response = Response.accepts s →
        Deadline env timeout ≤ (env.endpoint c).delay) ∧
      (∀ c r, (c, r) ∈ report.logged → c ∈ servers ∧
        (env.endpoint c).response = Response.rejects r ∧
        (env.endpoint c).delay < Deadline env timeout)) := by
  have hnull : connect_parallel env servers timeout = Except.ok none := by
    rcases hres with h | ⟨reasons, h⟩ <;> simp [connect_parallel, hrace, h]
  have hne : servers ≠ [] := by
    rintro rfl
    simp [ConnectionRace] at hrace
  have hord := arrivalOrdered_launch env (Deadline env timeout) servers
  have hfail : ∀ pre : List Arrival, (∀ a ∈ pre, inTimeFailure (Deadline env timeout) a) →
      (∀ a ∈ pre, a ∈ (launch env (Deadline env timeout) servers).arrivals) →
      ∀ c r, (c, r) ∈ pre.filterMap failureOf → c ∈ servers ∧
        (env.endpoint c).response = Response.rejects r ∧
        (env.endpoint c).delay < Deadline env timeout := by
    intro pre hpre hsub c r hcr
    obtain ⟨t, ht⟩ := (mem_filterMap_failureOf c r pre).mp hcr
    obtain ⟨c', hc', hsa⟩ := (mem_launch env _ servers _).mp (hsub _ ht)
    obtain ⟨rfl, _, hd, hr⟩ :=
      SingleAttempt_failure_inv env c' c _ t r hsa.symm (hpre _ ht).1
    exact ⟨hc', hr, hd⟩
  obtain ⟨pre, hpre, hshape⟩ := race_shape env servers timeout hne
  rcases hshape with ⟨harr, t, hrace'⟩ | ⟨t, s, w, post, _, _, hrace'⟩ | ⟨b, post, hb, harr, hrace'⟩
  · rw [hrace] at hrace'
    injection hrace' with hrep
    subst hrep
    refine ⟨hnull, ?_, ?_⟩
    · intro reasons hreasons
      injection hreasons with hreasons
      subst hreasons
      refine ⟨rfl, ?_, ?_, ?_⟩
      · rw [length_filterMap_failureOf _ pre hpre, ← harr, length_launch]
      · intro c hc
        have hm : SingleAttempt env c (Deadline env timeout) ∈ pre := by
          rw [← harr, mem_launch]
          exact ⟨c, hc, rfl⟩
        have hin := hpre _ hm
        cases hsa : SingleAttempt env c (Deadline env timeout) with
        | mk ta oa =>
          cases oa with
          | Success s' c' =>
            rw [hsa] at hin
            simp [inTimeFailure, failureOf] at hin
          | Failure c' r =>
            rw [hsa] at hin hm
            obtain ⟨rfl, _, _, _⟩ := SingleAttempt_failure_inv env c c' _ ta r hsa hin.1
            exact ⟨r, (mem_filterMap_failureOf _ r pre).mpr ⟨ta, hm⟩⟩
      · exact hfail pre hpre (fun a ha => by rw [harr]; exact ha)
    · intro h
      cases h
  · rw [hrace] at hrace'
    injection hrace' with hrep
    subst hrep
    rcases hres with h | ⟨reasons, h⟩ <;> cases h
  · rw [hrace] at hrace'
    injection hrace' with hrep
    subst hrep
    refine ⟨hnull, ?_, ?_⟩
    · intro reasons h
      cases h
    · intro _
      have hbmem : b ∈ (launch env (Deadline env timeout) servers).arrivals := by
        rw [harr]; simp
      obtain ⟨cb, hcb, hsb⟩ := (mem_launch env _ servers _).mp hbmem
      refine ⟨⟨cb, hcb, SingleAttempt_late env cb _ (hsb ▸ hb)⟩, ?_, ?_⟩
      · intro c hc s hr
        by_contra hlt
        have hd : (env.endpoint c).delay < Deadline env timeout := by omega
        have hm : (⟨(env.endpoint c).delay, AttemptOutcome.Success s c⟩ : Arrival)
            ∈ (launch env (Deadline env timeout) servers).arrivals := by
          rw [mem_launch]
          exact ⟨c, hc, (SingleAttempt_accepts env c _ s hr hd).symm⟩
        rw [harr, List.mem_append, List.mem_cons] at hm
        rcases hm with hm | hm | hm
        · have := (hpre _ hm).2
          simp [failureOf] at this
        · rw [← hm] at hb
          simp at hb
          omega
        · have := arrivalOrdered_split pre post _ (harr ▸ hord) _ hm
          simp at this
          omega
      · exact hfail pre hpre (fun a ha => by rw [harr]; simp [ha])

/-- Witness for C7, the scenario of section 8: the single candidate X succeeds after 5 s, the
timeout is 1 s; the race ends `TimedOut` and the call returns null. -/
theorem C7_null_when_no_winner_witness :
    ConnectionRace scenarioX [⟨"X", 80⟩] 1000
      = Except.ok ⟨RaceResult.TimedOut, 1000, [], [], none⟩ ∧
    connect_parallel scenarioX [⟨"X", 80⟩] 1000 = Except.ok none :=
  ⟨rfl, (C7_null_when_no_winner scenarioX [⟨"X", 80⟩] 1000
    ⟨RaceResult.TimedOut, 1000, [], [], none⟩ rfl (Or.inl rfl)).1⟩

end TCPConnector

namespace StringRef

theorem slice_zero (s : StringRef) (Idx : Nat) (hs : s.size < SIZE_MOD) (hi : Idx ≤ s.size) :
    (s.slice 0 Idx).Data = s.Data.take Idx := by
  have h : (min (max (min 0 s.size) Idx) s.size + SIZE_MOD - min 0 s.size) % SIZE_MOD = Idx := by
    unfold SIZE_MOD at *
    omega
  simp only [slice, h]
  simp

theorem slice_npos (s : StringRef) (Start : Nat) (hs : s.size < SIZE_MOD)
    (hi : Start ≤ s.size) :
    (s.slice Start npos).Data = s.Data.drop Start := by
  have h : (min (max (min Start s.size) npos) s.size + SIZE_MOD - min Start s.size) % SIZE_MOD
      = s.size - Start := by
    unfold SIZE_MOD npos at *
    omega
  have h2 : min Start s.size = Start := by omega
  unfold slice
  rw [h, h2]
  apply List.take_of_length_le
  simp [size]

theorem findFrom_spec (s Str : StringRef) :
    ∀ fuel i, fuel + i = s.size + 1 →
      (findFrom s Str fuel i = npos ∧ ∀ j, i ≤ j → ¬ occursAt s Str j) ∨
      (occursAt s Str (findFrom s Str fuel i) ∧ i ≤ findFrom s Str fuel i ∧
        ∀ j, i ≤ j → j < findFrom s Str fuel i → ¬ occursAt s Str j) := by
  intro fuel
  induction fuel with
  | zero =>
    intro i hi
    left
    refine ⟨rfl, ?_⟩
    rintro j hj ⟨hb, _⟩
    omega
  | succ fuel ih =>
    intro i hi
    unfold findFrom
    by_cases hocc : occursAt s Str i
    · right
      simp only [if_pos hocc]
      exact ⟨hocc, le_refl _, fun j h1 h2 => by omega⟩
    · simp only [if_neg hocc]
      rcases ih (i + 1) (by omega) with ⟨hn, hall⟩ | ⟨ho, hle, hall⟩
      · left
        refine ⟨hn, ?_⟩
        intro j hj
        by_cases hji : j = i
        · subst hji; exact hocc
        · exact hall j (by omega)
      · right
        refine ⟨ho, by omega, ?_⟩
        intro j h1 h2
        by_cases hji : j = i
        · subst hji; exact hocc
        · exact hall j (by omega) h2

/-- The documented `find` meets the contract assumed of it in C9. -/
theorem find_first_occurrence (s Str : StringRef) :
    (find s Str 0 = npos ∧ ∀ i, ¬ occursAt s Str i) ∨
    (occursAt s Str (find s Str 0) ∧ ∀ j, j < find s Str 0 → ¬ occursAt s Str j) := by
  rcases findFrom_spec s Str (s.size + 1 - 0) 0 (by omega) with ⟨hn, hall⟩ | ⟨ho, _, hall⟩
  · exact Or.inl ⟨hn, fun i => hall i (Nat.zero_le _)⟩
  · exact Or.inr ⟨ho, fun j hj => hall j (Nat.zero_le _) hj⟩

/-- C9: `split(StringRef Separator)` splits around the first occurrence. Assuming that
`find(Separator)` returns the index of the first occurrence of `Separator`, or `npos` when there
is none: if `Separator` occurs in `s`, the result `(LHS, RHS)` satisfies
`s == LHS + Separator + RHS` and `Separator` does not occur in `s` at any index before
`LHS.size()`; if it does not occur, the result is `(s, empty)`. `split(char)` is the same
function on the one-character separator. -/
theorem C9_split_first_occurrence (find : StringRef → StringRef → Nat → Nat)
    (s Separator : StringRef) (hs : s.size < SIZE_MOD)
    (hfind : (find s Separator 0 = npos ∧ ∀ i, ¬ occursAt s Separator i) ∨
      (occursAt s Separator (find s Separator 0) ∧
        ∀ j, j < find s Separator 0 → ¬ occursAt s Separator j)) :
    ((∃ i, occursAt s Separator i) →
      s.Data = (split find s Separator).1.Data ++ Separator.Data
          ++ (split find s Separator).2.Data ∧
      (split find s Separator).1.size = find s Separator 0 ∧
      ∀ j, j < (split find s Separator).1.size → ¬ occursAt s Separator j) ∧
    ((¬ ∃ i, occursAt s Separator i) → split find s Separator = (s, ⟨[]⟩)) ∧
    (∀ c : UInt8, split_char find s c = split find s ⟨[c]⟩) := by
  refine ⟨?_, ?_, fun _ => rfl⟩
  · rintro ⟨i, hi⟩
    rcases hfind with ⟨_, hnone⟩ | ⟨hocc, hfirst⟩
    · exact absurd hi (hnone i)
    · obtain ⟨hbound, hdata⟩ := hocc
      have hne : find s Separator 0 ≠ npos := by
        intro heq
        rw [heq] at hbound hfirst
        have hsep : Separator.size = 0 := by unfold SIZE_MOD npos at *; omega
        have h0 : occursAt s Separator 0 := by
          refine ⟨by omega, ?_⟩
          have : Separator.Data = [] := List.length_eq_zero.mp hsep
          simp [hsep, this]
        exact hfirst 0 (by unfold npos; omega) h0
      have hmod : (find s Separator 0 + Separator.size) % SIZE_MOD
          = find s Separator 0 + Separator.size := by
        unfold SIZE_MOD at *
        omega
      have hL : (s.slice 0 (find s Separator 0)).Data = s.Data.take (find s Separator 0) :=
        slice_zero s _ hs (by omega)
      have hR : (s.slice (find s Separator 0 + Separator.size) npos).Data
          = s.Data.drop (find s Separator 0 + Separator.size) :=
        slice_npos s _ hs hbound
      simp only [split, if_neg hne, hmod]
      refine ⟨?_, ?_, ?_⟩
      · rw [hL, hR, ← hdata, List.append_assoc]
        have h1 : (s.Data.drop (find s Separator 0)).take Separator.size
              ++ s.Data.drop (find s Separator 0 + Separator.size)
            = s.Data.drop (find s Separator 0) := by
          rw [← List.drop_drop]
          exact List.take_append_drop _ _
        rw [h1, List.take_append_drop]
      · simp only [size] at hbound ⊢
        rw [hL, List.length_take]
        omega
      · intro j hj
        apply hfirst
        simp only [size] at hbound hj ⊢
        rw [hL, List.length_take] at hj
        omega
  · intro hno
    rcases hfind with ⟨hnp, _⟩ | ⟨hocc, _⟩
    · simp [split, hnp]
    · exact absurd ⟨_, hocc⟩ hno

/-- Witness for C9: `"k=v=w"` split at `"="` by the documented `find`. -/
theorem C9_split_first_occurrence_witness :
    split find ⟨[107, 61, 118, 61, 119]⟩ ⟨[61]⟩ = (⟨[107]⟩, ⟨[118, 61, 119]⟩) ∧
    (((∃ i, occursAt ⟨[107, 61, 118, 61, 119]⟩ ⟨[61]⟩ i) →
      (⟨[107, 61, 118, 61, 119]⟩ : StringRef).Data
        = (split find ⟨[107, 61, 118, 61, 119]⟩ ⟨[61]⟩).1.Data ++ (⟨[61]⟩ : StringRef).Data
          ++ (split find ⟨[107, 61, 118, 61, 119]⟩ ⟨[61]⟩).2.Data ∧
      (split find ⟨[107, 61, 118, 61, 119]⟩ ⟨[61]⟩).1.size
        = find ⟨[107, 61, 118, 61, 119]⟩ ⟨[61]⟩ 0 ∧
      ∀ j, j < (split find ⟨[107, 61, 118, 61, 119]⟩ ⟨[61]⟩).1.size →
        ¬ occursAt ⟨[107, 61, 118, 61, 119]⟩ ⟨[61]⟩ j) ∧
    ((¬ ∃ i, occursAt ⟨[107, 61, 118, 61, 119]⟩ ⟨[61]⟩ i) →
      split find ⟨[107, 61, 118, 61, 119]⟩ ⟨[61]⟩ = (⟨[107, 61, 118, 61, 119]⟩, ⟨[]⟩)) ∧
    (∀ c : UInt8, split_char find ⟨[107, 61, 118, 61, 119]⟩ c
      = split find ⟨[107, 61, 118, 61, 119]⟩ ⟨[c]⟩)) :=
  ⟨by decide,
   C9_split_first_occurrence find ⟨[107, 61, 118, 61, 119]⟩ ⟨[61]⟩ (by decide)
    (Or.inr ⟨by decide, by decide⟩)⟩

theorem substr_length_arg (s : StringRef) (Start N : Nat) (hs : s.size < SIZE_MOD) :
    min N ((s.size + SIZE_MOD - min Start s.size) % SIZE_MOD)
      = min N (s.size - min Start s.size) := by
  unfold SIZE_MOD at *
  omega

/-- C10: `substr(Start, N)` returns exactly the characters of `s` at the indices
`[Start', Start' + min(N, size() - Start'))`, where `Start' = min(Start, size())`. The result is
a contiguous sub-range lying inside `s`; it is empty when `Start >= size()`; it is the whole
suffix from `Start` when `N` is at least the number of characters remaining, in particular for
`N = npos`; and the `size_t` subtraction `Length - Start` does not wrap. -/
theorem C10_substr_subrange (s : StringRef) (Start N : Nat) (hs : s.size < SIZE_MOD) :
    (s.substr Start N).size = min N (s.size - min Start s.size) ∧
    (∀ i, i < min N (s.size - min Start s.size) →
      (s.substr Start N).Data[i]? = s.Data[min Start s.size + i]? ∧
      (s.substr Start N).Data[i]?.isSome = true) ∧
    min Start s.size + (s.substr Start N).size ≤ s.size ∧
    (s.size ≤ Start → (s.substr Start N).Data = []) ∧
    (s.size - min Start s.size ≤ N → (s.substr Start N).Data = s.Data.drop Start) ∧
    (s.substr Start npos).Data = s.Data.drop Start ∧
    (min Start s.size ≤ s.size ∧
      (s.size + SIZE_MOD - min Start s.size) % SIZE_MOD = s.size - min Start s.size) := by
  have hdata : ∀ M, (s.substr Start M).Data
      = (s.Data.drop (min Start s.size)).take (min M (s.size - min Start s.size)) := by
    intro M
    simp only [substr, substr_length_arg s Start M hs]
  have hlen : (s.substr Start N).size = min N (s.size - min Start s.size) := by
    simp only [size, hdata, List.length_take, List.length_drop]
    simp only [size] at hs
    omega
  have hsuffix : ∀ M, s.size - min Start s.size ≤ M →
      (s.substr Start M).Data = s.Data.drop Start := by
    intro M hM
    rw [hdata]
    have h1 : (s.Data.drop (min Start s.size)).take (min M (s.size - min Start s.size))
        = s.Data.drop (min Start s.size) := by
      apply List.take_of_length_le
      simp only [List.length_drop, size] at hM ⊢
      omega
    rw [h1]
    by_cases hle : Start ≤ s.size
    · rw [Nat.min_eq_left hle]
    · have h2 : min Start s.size = s.size := by omega
      rw [h2, List.drop_of_length_le (by simp [size]), List.drop_of_length_le]
      simp only [size] at hle
      omega
  refine ⟨hlen, ?_, ?_, ?_, hsuffix N, ?_, ⟨Nat.min_le_right _ _, ?_⟩⟩
  · intro i hi
    have h1 : (s.substr Start N).Data[i]? = s.Data[min Start s.size + i]? := by
      rw [hdata, List.getElem?_take_of_lt hi, List.getElem?_drop]
    refine ⟨h1, ?_⟩
    have hlt : i < (s.substr Start N).Data.length := by
      have := hlen
      simp only [size] at this hi
      omega
    simp [List.getElem?_eq_getElem hlt]
  · rw [hlen]
    omega
  · intro hge
    have h0 : min N (s.size - min Start s.size) = 0 := by omega
    rw [hdata, h0]
    simp
  · apply hsuffix
    unfold npos
    unfold SIZE_MOD at hs
    omega
  · unfold SIZE_MOD at *
    omega

/-- Witness for C10: `"hello".substr(1, 3)` is `"ell"`. -/
theorem C10_substr_subrange_witness :
    (StringRef.mk [104, 101, 108, 108, 111]).substr 1 3 = ⟨[101, 108, 108]⟩ ∧
    (StringRef.mk [104, 101, 108, 108, 111]).substr 7 npos = ⟨[]⟩ ∧
    (StringRef.mk [104, 101, 108, 108, 111]).substr 2 npos = ⟨[108, 108, 111]⟩ ∧
    ((StringRef.mk [104, 101, 108, 108, 111]).substr 1 3).size
      = min 3 ((StringRef.mk [104, 101, 108, 108, 111]).size
          - min 1 (StringRef.mk [104, 101, 108, 108, 111]).size) :=
  ⟨by decide, by decide, by decide,
   (C10_substr_subrange ⟨[104, 101, 108, 108, 111]⟩ 1 3 (by decide)).1⟩

/-- C11: `slice(Start, End)` returns the characters of `s` at the indices
`[min(Start, size()), min(max(Start, End), size()))`. It is empty when `End < Start` or
`Start >= size()`, it is the suffix from `Start` when `End` is `npos` or is at least `size()`,
and the `size_t` subtraction `End - Start` does not wrap. -/
theorem C11_slice_subrange (s : StringRef) (Start End : Nat) (hs : s.size < SIZE_MOD) :
    (s.slice Start End).size = min (max Start End) s.size - min Start s.size ∧
    (∀ i, min Start s.size ≤ i → i < min (max Start End) s.size →
      (s.slice Start End).Data[i - min Start s.size]? = s.Data[i]? ∧
      (s.slice Start End).Data[i - min Start s.size]?.isSome = true) ∧
    min Start s.size + (s.slice Start End).size ≤ s.size ∧
    (End < Start → (s.slice Start End).Data = []) ∧
    (s.size ≤ Start → (s.slice Start End).Data = []) ∧
    (s.size ≤ End → (s.slice Start End).Data = s.Data.drop Start) ∧
    (s.slice Start npos).Data = s.Data.drop Start ∧
    (min Start s.size ≤ min (max (min Start s.size) End) s.size ∧
      (min (max (min Start s.size) End) s.size + SIZE_MOD - min Start s.size) % SIZE_MOD
        = min (max (min Start s.size) End) s.size - min Start s.size) := by
  have hdata : ∀ E, (s.slice Start E).Data
      = (s.Data.drop (min Start s.size)).take (min (max Start E) s.size - min Start s.size) := by
    intro E
    have h : (min (max (min Start s.size) E) s.size + SIZE_MOD - min Start s.size) % SIZE_MOD
        = min (max Start E) s.size - min Start s.size := by
      unfold SIZE_MOD at *
      omega
    unfold slice
    rw [h]
  have hlen : (s.slice Start End).size = min (max Start End) s.size - min Start s.size := by
    simp only [size, hdata, List.length_take, List.length_drop]
    omega
  have hsuffix : ∀ E, s.size ≤ E → (s.slice Start E).Data = s.Data.drop Start := by
    intro E hE
    rw [hdata]
    have h1 : (s.Data.drop (min Start s.size)).take (min (max Start E) s.size - min Start s.size)
        = s.Data.drop (min Start s.size) := by
      apply List.take_of_length_le
      simp only [List.length_drop, size] at hE ⊢
      omega
    rw [h1]
    by_cases hle : Start ≤ s.size
    · rw [Nat.min_eq_left hle]
    · have h2 : min Start s.size = s.size := by omega
      rw [h2, List.drop_of_length_le (by simp [size]), List.drop_of_length_le]
      simp only [size] at hle
      omega
  refine ⟨hlen, ?_, ?_, ?_, ?_, hsuffix End, ?_, ?_, ?_⟩
  · intro i h1 h2
    have hi : i - min Start s.size < min (max Start End) s.size - min Start s.size := by omega
    have hget : (s.slice Start End).Data[i - min Start s.size]? = s.Data[i]? := by
      rw [hdata, List.getElem?_take_of_lt hi, List.getElem?_drop]
      congr 1
      omega
    refine ⟨hget, ?_⟩
    rw [hget]
    have : i < s.Data.length := by simp only [size] at h2; omega
    simp [List.getElem?_eq_getElem this]
  · rw [hlen]
    omega
  · intro h
    have h0 : min (max Start End) s.size - min Start s.size = 0 := by omega
    rw [hdata, h0]
    simp
  · intro h
    have h0 : min (max Start End) s.size - min Start s.size = 0 := by omega
    rw [hdata, h0]
    simp
  · apply hsuffix
    unfold npos
    unfold SIZE_MOD at hs
    omega
  · omega
  · unfold SIZE_MOD at *
    omega

/-- Witness for C11: slices of `"hello"`. -/
theorem C11_slice_subrange_witness :
    (StringRef.mk [104, 101, 108, 108, 111]).slice 1 3 = ⟨[101, 108]⟩ ∧
    (StringRef.mk [104, 101, 108, 108, 111]).slice 3 1 = ⟨[]⟩ ∧
    (StringRef.mk [104, 101, 108, 108, 111]).slice 2 npos = ⟨[108, 108, 111]⟩ ∧
    ((StringRef.mk [104, 101, 108, 108, 111]).slice 1 3).size
      = min (max 1 3) (StringRef.mk [104, 101, 108, 108, 111]).size
          - min 1 (StringRef.mk [104, 101, 108, 108, 111]).size :=
  ⟨by decide, by decide, by decide,
   (C11_slice_subrange ⟨[104, 101, 108, 108, 111]⟩ 1 3 (by decide)).1⟩

theorem memchr_spec (c : UInt8) :
    ∀ (l : List UInt8) (n : Nat),
      (memchr l c n = none ∧ ∀ j, j < n → l[j]? ≠ some c) ∨
      (∃ off, memchr l c n = some off ∧ off < n ∧ l[off]? = some c ∧
        ∀ j, j < off → l[j]? ≠ some c) := by
  intro l
  induction l with
  | nil =>
    intro n
    left
    cases n <;> simp [memchr]
  | cons b rest ih =>
    intro n
    cases n with
    | zero => left; simp [memchr]
    | succ n =>
      by_cases hb : b = c
      · right
        exact ⟨0, by simp [memchr, hb], by omega, by simp [hb], fun j hj => by omega⟩
      · rcases ih n with ⟨hn, hall⟩ | ⟨off, hoff, hlt, hget, hall⟩
        · left
          refine ⟨by simp [memchr, hb, hn], ?_⟩
          intro j hj
          cases j with
          | zero => simpa using hb
          | succ j => simpa using hall j (by omega)
        · right
          refine ⟨off + 1, by simp [memchr, hb, hoff], by omega, by simpa using hget, ?_⟩
          intro j hj
          cases j with
          | zero => simpa using hb
          | succ j => simpa using hall j (by omega)

/-- C12: `find(char C, size_t From)` returns the index of the first occurrence of `C` at or
after `From`: the least `i` with `From <= i < size()` and `s[i] == C`. It is `npos` exactly
when there is no such `i`, in particular whenever `From >= size()` or `s` is empty. -/
theorem C12_find_char_first (s : StringRef) (C : UInt8) (From : Nat) (hs : s.size < SIZE_MOD) :
    (s.find_char C From = npos ↔ ¬ ∃ i, From ≤ i ∧ i < s.size ∧ s.Data[i]? = some C) ∧
    (s.find_char C From ≠ npos →
      From ≤ s.find_char C From ∧ s.find_char C From < s.size ∧
      s.Data[s.find_char C From]? = some C ∧
      ∀ j, From ≤ j → j < s.find_char C From → s.Data[j]? ≠ some C) ∧
    (s.size ≤ From → s.find_char C From = npos) ∧
    (s.size = 0 → s.find_char C From = npos) := by
  have hlate : s.size ≤ From → s.find_char C From = npos := by
    intro h
    have : ¬ min From s.size < s.size := by omega
    simp [find_char, this]
  have hmain : (s.find_char C From = npos ∧ ¬ ∃ i, From ≤ i ∧ i < s.size ∧ s.Data[i]? = some C) ∨
      (s.find_char C From ≠ npos ∧ From ≤ s.find_char C From ∧ s.find_char C From < s.size ∧
        s.Data[s.find_char C From]? = some C ∧
        ∀ j, From ≤ j → j < s.find_char C From → s.Data[j]? ≠ some C) := by
    by_cases hF : From < s.size
    · have h1 : min From s.size = From := by omega
      have h2 : (s.size + SIZE_MOD - From) % SIZE_MOD = s.size - From := by
        unfold SIZE_MOD at *
        omega
      rcases memchr_spec C (s.Data.drop From) (s.size - From) with
        ⟨hn, hall⟩ | ⟨off, hoff, hlt, hget, hall⟩
      · left
        refine ⟨by simp [find_char, h1, h2, hF, hn], ?_⟩
        rintro ⟨i, hi1, hi2, hi3⟩
        have := hall (i - From) (by omega)
        rw [List.getElem?_drop] at this
        rw [show From + (i - From) = i by omega] at this
        exact this hi3
      · right
        have hval : s.find_char C From = From + off := by
          have : (From + off) % SIZE_MOD = From + off := by
            unfold SIZE_MOD at *
            omega
          simp [find_char, h1, h2, hF, hoff, this]
        rw [hval]
        refine ⟨?_, by omega, by omega, ?_, ?_⟩
        · unfold npos
          unfold SIZE_MOD at hs
          omega
        · rw [← List.getElem?_drop]
          exact hget
        · intro j hj1 hj2
          have := hall (j - From) (by omega)
          rw [List.getElem?_drop] at this
          rwa [show From + (j - From) = j by omega] at this
    · left
      refine ⟨hlate (by omega), ?_⟩
      rintro ⟨i, hi1, hi2, _⟩
      omega
  refine ⟨?_, ?_, hlate, fun h => hlate (by omega)⟩
  · rcases hmain with ⟨h1, h2⟩ | ⟨h1, h2, h3, h4, _⟩
    · exact ⟨fun _ => h2, fun _ => h1⟩
    · exact ⟨fun h => absurd h h1, fun h => absurd ⟨_, h2, h3, h4⟩ h⟩
  · intro hne
    rcases hmain with ⟨h1, _⟩ | ⟨_, h2⟩
    · exact absurd h1 hne
    · exact h2

/-- Witness for C12: in `"hello"`, the first `l` at or after index 3 is at index 3, and
there is no `h` after index 1. -/
theorem C12_find_char_first_witness :
    (StringRef.mk [104, 101, 108, 108, 111]).find_char 108 0 = 2 ∧
    (StringRef.mk [104, 101, 108, 108, 111]).find_char 108 3 = 3 ∧
    (StringRef.mk [104, 101, 108, 108, 111]).find_char 104 1 = npos ∧
    (StringRef.mk [104, 101, 108, 108, 111]).find_char 111 9 = npos ∧
    ((StringRef.mk [104, 101, 108, 108, 111]).find_char 104 1 = npos ↔
      ¬ ∃ i, 1 ≤ i ∧ i < (StringRef.mk [104, 101, 108, 108, 111]).size ∧
        (StringRef.mk [104, 101, 108, 108, 111]).Data[i]? = some 104) :=
  ⟨by decide, by decide, by decide, by decide,
   (C12_find_char_first ⟨[104, 101, 108, 108, 111]⟩ 104 1 (by decide)).1⟩

theorem rfind_loop_spec (s : StringRef) (C : UInt8) :
    ∀ n, n ≤ s.size →
      (rfind_loop s C n = npos ∧ ∀ j, j < n → s.Data[j]? ≠ some C) ∨
      (rfind_loop s C n < n ∧ s.Data[rfind_loop s C n]? = some C ∧
        ∀ j, rfind_loop s C n < j → j < n → s.Data[j]? ≠ some C) := by
  intro n
  induction n with
  | zero => intro _; left; exact ⟨rfl, fun j hj => by omega⟩
  | succ n ih =>
    intro hn
    by_cases hC : s.Data[n]? = some C
    · right
      simp only [rfind_loop, if_pos hC]
      exact ⟨by omega, hC, fun j h1 h2 => by omega⟩
    · simp only [rfind_loop, if_neg hC]
      rcases ih (by omega) with ⟨h1, h2⟩ | ⟨h1, h2, h3⟩
      · left
        refine ⟨h1, ?_⟩
        intro j hj
        by_cases hjn : j = n
        · subst hjn; exact hC
        · exact h2 j (by omega)
      · right
        refine ⟨by omega, h2, ?_⟩
        intro j hj1 hj2
        by_cases hjn : j = n
        · subst hjn; exact hC
        · exact h3 j hj1 (by omega)

/-- C13: `rfind(char C, size_t From)` returns the index of the last occurrence of `C` before
`From`: the greatest `i` with `i < min(From, size())` and `s[i] == C`, or `npos` if there is
none. With `From = npos` it is the last occurrence of `C` in the whole string.
`find_last_of(char, size_t)` is the same function. -/
theorem C13_rfind_char_last (s : StringRef) (C : UInt8) (From : Nat) (hs : s.size < SIZE_MOD) :
    (s.rfind_char C From = npos ↔ ¬ ∃ i, i < min From s.size ∧ s.Data[i]? = some C) ∧
    (s.rfind_char C From ≠ npos →
      s.rfind_char C From < min From s.size ∧
      s.Data[s.rfind_char C From]? = some C ∧
      ∀ j, s.rfind_char C From < j → j < min From s.size → s.Data[j]? ≠ some C) ∧
    (s.rfind_char C npos ≠ npos →
      s.rfind_char C npos < s.size ∧ s.Data[s.rfind_char C npos]? = some C ∧
      ∀ j, s.rfind_char C npos < j → j < s.size → s.Data[j]? ≠ some C) ∧
    (s.rfind_char C npos = npos ↔ ¬ ∃ i, i < s.size ∧ s.Data[i]? = some C) ∧
    s.find_last_of_char C From = s.rfind_char C From := by
  have key : ∀ F : Nat,
      (s.rfind_char C F = npos ↔ ¬ ∃ i, i < min F s.size ∧ s.Data[i]? = some C) ∧
      (s.rfind_char C F ≠ npos →
        s.rfind_char C F < min F s.size ∧ s.Data[s.rfind_char C F]? = some C ∧
        ∀ j, s.rfind_char C F < j → j < min F s.size → s.Data[j]? ≠ some C) := by
    intro F
    unfold rfind_char
    rcases rfind_loop_spec s C (min F s.size) (by omega) with ⟨h1, h2⟩ | ⟨h1, h2, h3⟩
    · refine ⟨⟨fun _ => ?_, fun _ => h1⟩, fun hne => absurd h1 hne⟩
      rintro ⟨i, hi, hget⟩
      exact h2 i hi hget
    · have hne : rfind_loop s C (min F s.size) ≠ npos := by
        unfold npos
        unfold SIZE_MOD at hs
        omega
      exact ⟨⟨fun h => absurd h hne, fun h => absurd ⟨_, h1, h2⟩ h⟩, fun _ => ⟨h1, h2, h3⟩⟩
  have hmin : min npos s.size = s.size := by
    unfold npos
    unfold SIZE_MOD at hs
    omega
  have knpos := key npos
  rw [hmin] at knpos
  exact ⟨(key From).1, (key From).2, knpos.2, knpos.1, rfl⟩

/-- Witness for C13: in `"hello"`, the last `l` is at index 3, the last `l` before index 3
is at index 2, and there is no `o` before index 4. -/
theorem C13_rfind_char_last_witness :
    (StringRef.mk [104, 101, 108, 108, 111]).rfind_char 108 npos = 3 ∧
    (StringRef.mk [104, 101, 108, 108, 111]).rfind_char 108 3 = 2 ∧
    (StringRef.mk [104, 101, 108, 108, 111]).rfind_char 111 4 = npos ∧
    ((StringRef.mk [104, 101, 108, 108, 111]).rfind_char 111 4 = npos ↔
      ¬ ∃ i, i < min 4 (StringRef.mk [104, 101, 108, 108, 111]).size ∧
        (StringRef.mk [104, 101, 108, 108, 111]).Data[i]? = some 111) :=
  ⟨by decide, by decide, by decide,
   (C13_rfind_char_last ⟨[104, 101, 108, 108, 111]⟩ 111 4 (by decide)).1⟩

theorem compareMemory_eq_memcmp (a b : List UInt8) (n : Nat) :
    compareMemory a b n = memcmp a b n := by
  unfold compareMemory
  split
  · rename_i h
    subst h
    cases a <;> cases b <;> simp [memcmp]
  · rfl

theorem memcmp_lex (a : List UInt8) :
    ∀ b : List UInt8,
      (lexLess a b = true ↔ memcmp a b (min a.length b.length) < 0 ∨
        (memcmp a b (min a.length b.length) = 0 ∧ a.length < b.length)) ∧
      (a = b ↔ memcmp a b (min a.length b.length) = 0 ∧ a.length = b.length) := by
  induction a with
  | nil =>
    intro b
    cases b with
    | nil => simp [lexLess, memcmp]
    | cons y ys => simp [lexLess, memcmp]
  | cons x xs ih =>
    intro b
    cases b with
    | nil => simp [lexLess, memcmp]
    | cons y ys =>
      have hmin : min (xs.length + 1) (ys.length + 1) = min xs.length ys.length + 1 :=
        Nat.add_min_add_right _ _ 1
      simp only [List.length_cons, hmin, memcmp, lexLess]
      by_cases hxy : x = y
      · subst hxy
        obtain ⟨h1, h2⟩ := ih ys
        simp only [if_true, lt_self_iff_false, decide_False, decide_True, Bool.false_or,
          Bool.true_and, List.cons.injEq, true_and, Nat.add_lt_add_iff_right,
          Nat.add_right_cancel_iff]
        exact ⟨h1, h2⟩
      · have hne : x.toNat ≠ y.toNat := fun h => hxy (UInt8.ext_iff.mpr h)
        simp only [if_neg hxy, hxy, if_false, decide_False, Bool.false_and, Bool.or_false,
          decide_eq_true_eq, List.cons.injEq, false_and, false_iff, not_and]
        constructor
        · constructor
          · intro h; left; omega
          · rintro (h | ⟨h, _⟩) <;> omega
        · intro h; omega

/-- C15: `compare` returns exactly -1, 0 or 1 according to lexicographic order. For every pair
of strings `a` and `b`, `a.compare(b)` is -1 iff `a` is lexicographically less than `b` (bytes
compared as unsigned values, a proper prefix being less than the longer string), 0 iff `a` and
`b` have the same length and bytes, and 1 otherwise, which is when `b` is lexicographically
less than `a`; no other value is returned. -/
theorem C15_compare_lexicographic (a b : StringRef) :
    (a.compare b = -1 ↔ lexLess a.Data b.Data = true) ∧
    (a.compare b = 0 ↔ a.Data = b.Data) ∧
    (a.compare b = 1 ↔ lexLess a.Data b.Data = false ∧ a.Data ≠ b.Data) ∧
    (a.compare b = 1 ↔ lexLess b.Data a.Data = true) ∧
    (a.compare b = -1 ∨ a.compare b = 0 ∨ a.compare b = 1) := by
  obtain ⟨hlt, heq⟩ := memcmp_lex a.Data b.Data
  obtain ⟨hgt, _⟩ := memcmp_lex b.Data a.Data
  have hanti : ∀ x y : List UInt8, ∀ n, memcmp y x n = - memcmp x y n := by
    intro x
    induction x with
    | nil =>
      intro y n
      cases y <;> cases n <;> simp [memcmp]
    | cons c cs ih =>
      intro y n
      cases y with
      | nil => cases n <;> simp [memcmp]
      | cons d ds =>
        cases n with
        | zero => simp [memcmp]
        | succ n =>
          by_cases hcd : c = d
          · subst hcd
            simp [memcmp, ih ds n]
          · have hdc : ¬ d = c := fun h => hcd h.symm
            simp only [memcmp, if_neg hcd, if_neg hdc]
            omega
  have hsym : memcmp b.Data a.Data (min b.Data.length a.Data.length)
      = - memcmp a.Data b.Data (min a.Data.length b.Data.length) := by
    rw [Nat.min_comm]
    exact hanti _ _ _
  rw [hsym] at hgt
  rw [hlt, heq, hgt]
  simp only [Bool.eq_false_iff, ne_eq, hlt, heq]
  unfold compare
  simp only [compareMemory_eq_memcmp, size]
  generalize memcmp a.Data b.Data (min a.Data.length b.Data.length) = m
  by_cases hm : m = 0
  · subst hm
    by_cases hl : a.Data.length = b.Data.length
    · simp [hl]
    · by_cases hl2 : a.Data.length < b.Data.length
      · simp [hl, hl2]
        omega
      · simp [hl, hl2]
        omega
  · by_cases hneg : m < 0
    · simp [hm, hneg]
      omega
    · simp [hm, hneg]
      omega

theorem substr_npos (s : StringRef) (N : Nat) (hs : s.size < SIZE_MOD) :
    s.substr N npos = ⟨s.Data.drop N⟩ := by
  have h : min npos ((s.size + SIZE_MOD - min N s.size) % SIZE_MOD) = s.size - min N s.size := by
    unfold SIZE_MOD npos at *
    omega
  unfold substr
  rw [h]
  congr 1
  have h1 : (s.Data.drop (min N s.size)).take (s.size - min N s.size)
      = s.Data.drop (min N s.size) := by
    apply List.take_of_length_le
    simp [size]
  rw [h1]
  by_cases hle : N ≤ s.size
  · rw [Nat.min_eq_left hle]
  · have h2 : min N s.size = s.size := by omega
    rw [h2, List.drop_of_length_le (by simp [size]), List.drop_of_length_le]
    simp only [size] at hle
    omega

theorem find_if_loop_spec (s : StringRef) (F : UInt8 → Bool) (hs : s.size < SIZE_MOD) :
    ∀ (l : List UInt8) (k fuel : Nat), s.Data.drop k = l → k ≤ s.size → l.length < fuel →
      ∃ r, find_if_loop s F fuel ⟨l⟩ = Checked.ok r ∧
        ((r = npos ∧ ∀ j, k ≤ j → ∀ c, s.Data[j]? = some c → F c = false) ∨
         (k ≤ r ∧ r < s.size ∧ (∃ c, s.Data[r]? = some c ∧ F c = true) ∧
           ∀ j, k ≤ j → j < r → ∀ c, s.Data[j]? = some c → F c = false)) := by
  intro l
  induction l with
  | nil =>
    intro k fuel hdrop hk hfuel
    obtain ⟨f, rfl⟩ : ∃ f, fuel = f + 1 := ⟨fuel - 1, by simp at hfuel; omega⟩
    refine ⟨npos, by simp [find_if_loop, empty, size], Or.inl ⟨rfl, ?_⟩⟩
    intro j hj c hc
    have hlen : s.Data.length ≤ k := by
      have := congrArg List.length hdrop
      simp at this
      omega
    have : s.Data[j]? = none := List.getElem?_eq_none (by omega)
    rw [this] at hc
    cases hc
  | cons c rest ih =>
    intro k fuel hdrop hk hfuel
    obtain ⟨f, rfl⟩ : ∃ f, fuel = f + 1 := ⟨fuel - 1, by simp at hfuel; omega⟩
    have hlen : s.Data.length - k = rest.length + 1 := by
      have := congrArg List.length hdrop
      simpa using this
    have hk' : k < s.Data.length := by omega
    have hget : s.Data[k]? = some c := by
      have := congrArg (fun l => l[0]?) hdrop
      simpa [List.getElem?_drop] using this
    have hrest : s.Data.drop (k + 1) = rest := by
      have := congrArg (List.drop 1) hdrop
      simpa [List.drop_drop, Nat.add_comm] using this
    by_cases hF : F c = true
    · refine ⟨k, ?_, Or.inr ⟨le_refl _, hk', ⟨c, hget, hF⟩, fun j h1 h2 => by omega⟩⟩
      have hval : (s.size + SIZE_MOD - (rest.length + 1)) % SIZE_MOD = k := by
        unfold SIZE_MOD at *
        simp only [size] at hs hk ⊢
        omega
      simp [find_if_loop, empty, size, front, Checked.bind, hF]
      simpa [size] using hval
    · have hFc : F c = false := by simpa using hF
      have hS : (StringRef.mk (c :: rest)).size < SIZE_MOD := by
        simp only [size, List.length_cons] at hs ⊢
        omega
      have hdf : (StringRef.mk (c :: rest)).drop_front 1 = Checked.ok ⟨rest⟩ := by
        simp [drop_front, substr_npos _ 1 hS, size]
      obtain ⟨r, hr, hspec⟩ := ih (k + 1) f hrest (by simp only [size]; omega)
        (by simp at hfuel; omega)
      refine ⟨r, ?_, ?_⟩
      · simp [find_if_loop, empty, size, front, Checked.bind, hFc]
        rw [show (StringRef.mk (c :: rest)).drop_front 1 = Checked.ok ⟨rest⟩ from hdf]
        simpa using hr
      · have hstep : ∀ j, k ≤ j → (j = k ∨ k + 1 ≤ j) := fun j hj => by omega
        rcases hspec with ⟨hn, hall⟩ | ⟨h1, h2, h3, hall⟩
        · left
          refine ⟨hn, ?_⟩
          intro j hj d hd
          rcases hstep j hj with rfl | hj'
          · rw [hget] at hd
            injection hd with hd
            rw [← hd]; exact hFc
          · exact hall j hj' d hd
        · right
          refine ⟨by omega, h2, h3, ?_⟩
          intro j hj hjr d hd
          rcases hstep j hj with rfl | hj'
          · rw [hget] at hd
            injection hd with hd
            rw [← hd]; exact hFc
          · exact hall j hj' hjr d hd

/-- What `find_if` returns for a start index inside the string. -/
theorem find_if_spec (s : StringRef) (F : UInt8 → Bool) (From : Nat) (hs : s.size < SIZE_MOD)
    (hFrom : From ≤ s.size) :
    ∃ r, s.find_if F From = Checked.ok r ∧
      ((r = npos ∧ ∀ j, From ≤ j → ∀ c, s.Data[j]? = some c → F c = false) ∨
       (From ≤ r ∧ r < s.size ∧ (∃ c, s.Data[r]? = some c ∧ F c = true) ∧
         ∀ j, From ≤ j → j < r → ∀ c, s.Data[j]? = some c → F c = false)) := by
  have hdf : s.drop_front From = Checked.ok ⟨s.Data.drop From⟩ := by
    simp [drop_front, hFrom, substr_npos s From hs]
  obtain ⟨r, hr, hspec⟩ := find_if_loop_spec s F hs (s.Data.drop From) From
    ((StringRef.mk (s.Data.drop From)).size + 1) rfl hFrom (by simp [size])
  exact ⟨r, by simp only [find_if, hdf, Checked.bind]; exact hr, hspec⟩

theorem firstSatisfying_of_spec (s : StringRef) (P : UInt8 → Bool) (From r : Nat)
    (hs : s.size < SIZE_MOD)
    (h : (r = npos ∧ ∀ j, From ≤ j → ∀ c, s.Data[j]? = some c → P c = false) ∨
      (From ≤ r ∧ r < s.size ∧ (∃ c, s.Data[r]? = some c ∧ P c = true) ∧
        ∀ j, From ≤ j → j < r → ∀ c, s.Data[j]? = some c → P c = false)) :
    firstSatisfying s P From r := by
  rcases h with ⟨hn, hall⟩ | ⟨h1, h2, h3, hall⟩
  · left
    refine ⟨hn, ?_⟩
    rintro ⟨i, c, hi, _, hget, hP⟩
    have := hall i hi c hget
    rw [hP] at this
    cases this
  · right
    refine ⟨?_, h1, h2, h3, hall⟩
    unfold npos
    unfold SIZE_MOD at hs
    omega

/-- C14 (as stated, refuted): on the one-character string `"h"`, `find_if(F, 2)` has no index
to report, and it does not return `npos`: the assertion of `drop_front(2)` fails. -/
theorem C14_counterexample :
    (StringRef.mk [104]).find_if isDigit 2 = Checked.assertion_failed ∧
    (StringRef.mk [104]).find_if isDigit 2 ≠ Checked.ok npos ∧
    (StringRef.mk [104]).find_if_not isDigit 2 = Checked.assertion_failed := by
  decide

/-- C14 (amended): for every `s`, predicate `F` and `From <= size()`, `find_if(F, From)`
returns the least `i` with `From <= i < size()` and `F(s[i])`, or `npos` when there is none, and
`find_if_not(F, From)` is the same with `F` negated. For `From > size()` the assertion
`size() >= N` of `drop_front` fails. -/
theorem C14_find_if_first_within (s : StringRef) (F : UInt8 → Bool) (From : Nat)
    (hs : s.size < SIZE_MOD) :
    (From ≤ s.size →
      (∃ r, s.find_if F From = Checked.ok r ∧ firstSatisfying s F From r) ∧
      (∃ r, s.find_if_not F From = Checked.ok r ∧
        firstSatisfying s (fun c => !F c) From r)) ∧
    (s.size < From →
      s.find_if F From = Checked.assertion_failed ∧
      s.find_if_not F From = Checked.assertion_failed) := by
  constructor
  · intro hFrom
    obtain ⟨r, hr, hspec⟩ := find_if_spec s F From hs hFrom
    obtain ⟨r', hr', hspec'⟩ := find_if_spec s (fun c => !F c) From hs hFrom
    exact ⟨⟨r, hr, firstSatisfying_of_spec s F From r hs hspec⟩,
      ⟨r', hr', firstSatisfying_of_spec s _ From r' hs hspec'⟩⟩
  · intro hlt
    have : ¬ From ≤ s.size := by omega
    simp [find_if_not, find_if, drop_front, this, Checked.bind]

/-- Witness for C14 (amended): the first digit of `"ab1"` is at index 2, and its first
non-digit at index 0. -/
theorem C14_find_if_first_within_witness :
    (StringRef.mk [97, 98, 49]).find_if isDigit 0 = Checked.ok 2 ∧
    (StringRef.mk [97, 98, 49]).find_if isDigit 3 = Checked.ok npos ∧
    (StringRef.mk [97, 98, 49]).find_if_not isDigit 0 = Checked.ok 0 ∧
    ((∃ r, (StringRef.mk [97, 98, 49]).find_if isDigit 0 = Checked.ok r ∧
        firstSatisfying ⟨[97, 98, 49]⟩ isDigit 0 r) ∧
      (∃ r, (StringRef.mk [97, 98, 49]).find_if_not isDigit 0 = Checked.ok r ∧
        firstSatisfying ⟨[97, 98, 49]⟩ (fun c => !isDigit c) 0 r)) :=
  ⟨by decide, by decide, by decide,
   (C14_find_if_first_within ⟨[97, 98, 49]⟩ isDigit 0 (by decide)).1 (by decide)⟩

theorem memcmp_eq_zero_iff :
    ∀ (n : Nat) (a b : List UInt8), n ≤ a.length → n ≤ b.length →
      (memcmp a b n = 0 ↔ a.take n = b.take n) := by
  intro n
  induction n with
  | zero => intro a b _ _; simp [memcmp]
  | succ n ih =>
    intro a b ha hb
    cases a with
    | nil => simp at ha
    | cons x xs =>
      cases b with
      | nil => simp at hb
      | cons y ys =>
        by_cases hxy : x = y
        · subst hxy
          simp only [memcmp, if_true, List.take_succ_cons, List.cons.injEq, true_and]
          exact ih xs ys (by simpa using ha) (by simpa using hb)
        · have hne : x.toNat ≠ y.toNat := fun h => hxy (UInt8.ext_iff.mpr h)
          simp only [memcmp, if_neg hxy, if_false, List.take_succ_cons, List.cons.injEq, hxy,
            false_and, iff_false]
          omega

theorem startswith_iff_prefix_of (s Prefix : StringRef) :
    s.startswith Prefix = true ↔ Prefix.Data <+: s.Data := by
  unfold startswith
  rw [Bool.and_eq_true, decide_eq_true_eq, decide_eq_true_eq, compareMemory_eq_memcmp]
  constructor
  · rintro ⟨hle, hcmp⟩
    have := (memcmp_eq_zero_iff Prefix.size s.Data Prefix.Data hle (le_refl _)).mp hcmp
    rw [List.prefix_iff_eq_take]
    simp only [size] at this ⊢
    rw [this, List.take_length]
  · intro hpre
    have hle : Prefix.size ≤ s.size := hpre.length_le
    refine ⟨hle, ?_⟩
    rw [memcmp_eq_zero_iff Prefix.size s.Data Prefix.Data hle (le_refl _)]
    have := List.prefix_iff_eq_take.mp hpre
    simp only [size]
    rw [← this, List.take_length]

/-- C17: `consume_front(Prefix)` returns true iff the string starts with `Prefix`; in that case
the string becomes `s` with its first `Prefix.size()` characters removed, and when it returns
false the string is unchanged. No assertion fails on the way. -/
theorem C17_consume_front (s Prefix : StringRef) (hs : s.size < SIZE_MOD) :
    ∃ r rest, s.consume_front Prefix = Checked.ok (r, rest) ∧
      (r = true ↔ Prefix.Data <+: s.Data) ∧
      (r = s.startswith Prefix) ∧
      (r = true → rest.Data = s.Data.drop Prefix.size ∧ s.Data = Prefix.Data ++ rest.Data) ∧
      (r = false → rest = s) := by
  by_cases hsw : s.startswith Prefix = true
  · have hpre := (startswith_iff_prefix_of s Prefix).mp hsw
    have hle : Prefix.size ≤ s.size := hpre.length_le
    refine ⟨true, ⟨s.Data.drop Prefix.size⟩, ?_, ?_, hsw.symm, ?_, ?_⟩
    · simp [consume_front, hsw, drop_front, hle, substr_npos s _ hs, Checked.bind]
    · simp [hpre]
    · intro _
      refine ⟨rfl, ?_⟩
      obtain ⟨t, ht⟩ := hpre
      rw [← ht]
      simp [size]
    · intro h
      cases h
  · have hsw' : s.startswith Prefix = false := by simpa using hsw
    refine ⟨false, s, by simp [consume_front, hsw'], ?_, hsw'.symm, ?_, fun _ => rfl⟩
    · constructor
      · intro h; cases h
      · intro h
        exact absurd ((startswith_iff_prefix_of s Prefix).mpr h) hsw
    · intro h
      cases h

/-- Witness for C17: `"k=v"` starts with `"k="` and does not start with `"v"`. -/
theorem C17_consume_front_witness :
    (StringRef.mk [107, 61, 118]).consume_front ⟨[107, 61]⟩ = Checked.ok (true, ⟨[118]⟩) ∧
    (StringRef.mk [107, 61, 118]).consume_front ⟨[118]⟩
      = Checked.ok (false, ⟨[107, 61, 118]⟩) ∧
    ∃ r rest, (StringRef.mk [107, 61, 118]).consume_front ⟨[107, 61]⟩ = Checked.ok (r, rest) ∧
      (r = true ↔ (StringRef.mk [107, 61]).Data <+: (StringRef.mk [107, 61, 118]).Data) ∧
      (r = (StringRef.mk [107, 61, 118]).startswith ⟨[107, 61]⟩) ∧
      (r = true → rest.Data = (StringRef.mk [107, 61, 118]).Data.drop (StringRef.mk [107, 61]).size ∧
        (StringRef.mk [107, 61, 118]).Data = (StringRef.mk [107, 61]).Data ++ rest.Data) ∧
      (r = false → rest = ⟨[107, 61, 118]⟩) :=
  ⟨by decide, by decide, C17_consume_front ⟨[107, 61, 118]⟩ ⟨[107, 61]⟩ (by decide)⟩

theorem substr_zero (s : StringRef) (n : Nat) (hs : s.size < SIZE_MOD) :
    (s.substr 0 n).Data = s.Data.take (min n s.size) := by
  have h : min n ((s.size + SIZE_MOD - min 0 s.size) % SIZE_MOD) = min n s.size := by
    unfold SIZE_MOD at *
    omega
  unfold substr
  rw [h]
  simp

/-- The prefix cut at the first character satisfying `P`: it is a prefix, none of its characters
satisfies `P`, and it is the whole string or is followed by a character satisfying `P`. -/
theorem prefix_before_first (s : StringRef) (P : UInt8 → Bool) (r : Nat)
    (hs : s.size < SIZE_MOD) (h : firstSatisfying s P 0 r) :
    (s.substr 0 r).Data <+: s.Data ∧
    (∀ c ∈ (s.substr 0 r).Data, P c = false) ∧
    (s.substr 0 r = s ∨ ∃ c, s.Data[(s.substr 0 r).size]? = some c ∧ P c = true) := by
  have hdata := substr_zero s r hs
  rcases h with ⟨hn, hnone⟩ | ⟨_, _, hlt, hsat, hall⟩
  · have hmin : min r s.size = s.size := by
      rw [hn]
      unfold npos
      unfold SIZE_MOD at hs
      omega
    have hwhole : (s.substr 0 r).Data = s.Data := by
      rw [hdata, hmin]
      simp [size]
    refine ⟨by rw [hwhole], ?_, Or.inl ?_⟩
    · intro c hc
      rw [hwhole] at hc
      obtain ⟨i, hi, hget⟩ := List.mem_iff_getElem.mp hc
      by_contra hP
      have hP' : P c = true := by simpa using hP
      exact hnone ⟨i, c, Nat.zero_le _, hi, by rw [List.getElem?_eq_getElem hi, hget], hP'⟩
    · cases hsub : s.substr 0 r with
      | mk d =>
        rw [hsub] at hwhole
        simp only at hwhole
        rw [hwhole]
  · have hmin : min r s.size = r := by omega
    rw [hmin] at hdata
    have hsize : (s.substr 0 r).size = r := by
      simp only [size, hdata, List.length_take]
      simp only [size] at hlt
      omega
    refine ⟨by rw [hdata]; exact List.take_prefix _ _, ?_, Or.inr ?_⟩
    · intro c hc
      rw [hdata] at hc
      obtain ⟨i, hi, hget⟩ := List.mem_iff_getElem.mp hc
      have hir : i < r := by
        simp only [List.length_take] at hi
        omega
      apply hall i (Nat.zero_le _) hir c
      have : (s.Data.take r)[i]? = some c := by rw [List.getElem?_eq_getElem hi, hget]
      rwa [List.getElem?_take_of_lt hir] at this
    · rw [hsize]
      exact hsat

/-- C18: `take_while(F)` returns the longest prefix of the string in which every character
satisfies `F`: the result `p` is a prefix of `s`, `F` holds for every character of `p`, and
either `p == s` or the character of `s` at index `p.size()` does not satisfy `F`.
`take_until(F)` is the same with `F` negated. No assertion fails on the way. -/
theorem C18_take_while_longest (s : StringRef) (F : UInt8 → Bool)
    (hs : s.size < SIZE_MOD) :
    (∃ p, s.take_while F = Checked.ok p ∧
      p.Data <+: s.Data ∧
      (∀ c ∈ p.Data, F c = true) ∧
      (p = s ∨ ∃ c, s.Data[p.size]? = some c ∧ F c = false)) ∧
    (∃ q, s.take_until F = Checked.ok q ∧
      q.Data <+: s.Data ∧
      (∀ c ∈ q.Data, F c = false) ∧
      (q = s ∨ ∃ c, s.Data[q.size]? = some c ∧ F c = true)) := by
  constructor
  · obtain ⟨r, hr, hspec⟩ := find_if_spec s (fun c => !F c) 0 hs (Nat.zero_le _)
    have hfirst := firstSatisfying_of_spec s _ 0 r hs hspec
    obtain ⟨h1, h2, h3⟩ := prefix_before_first s _ r hs hfirst
    refine ⟨s.substr 0 r, ?_, h1, ?_, ?_⟩
    · simp only [take_while, find_if_not, hr, Checked.bind]
    · intro c hc
      simpa using h2 c hc
    · rcases h3 with h3 | ⟨c, hc, hP⟩
      · exact Or.inl h3
      · exact Or.inr ⟨c, hc, by simpa using hP⟩
  · obtain ⟨r, hr, hspec⟩ := find_if_spec s F 0 hs (Nat.zero_le _)
    have hfirst := firstSatisfying_of_spec s _ 0 r hs hspec
    obtain ⟨h1, h2, h3⟩ := prefix_before_first s _ r hs hfirst
    exact ⟨s.substr 0 r, by simp only [take_until, hr, Checked.bind], h1, h2, h3⟩

/-- Witness for C18: the leading digits of `"12a3"` are `"12"`, and `"12"` consists of digits
only. -/
theorem C18_take_while_longest_witness :
    (StringRef.mk [49, 50, 97, 51]).take_while isDigit = Checked.ok ⟨[49, 50]⟩ ∧
    (StringRef.mk [49, 50]).take_while isDigit = Checked.ok ⟨[49, 50]⟩ ∧
    (StringRef.mk [49, 50, 97, 51]).take_until isDigit = Checked.ok ⟨[]⟩ ∧
    ∃ p, (StringRef.mk [49, 50, 97, 51]).take_while isDigit = Checked.ok p ∧
      p.Data <+: (StringRef.mk [49, 50, 97, 51]).Data ∧
      (∀ c ∈ p.Data, isDigit c = true) ∧
      (p = ⟨[49, 50, 97, 51]⟩ ∨
        ∃ c, (StringRef.mk [49, 50, 97, 51]).Data[p.size]? = some c ∧ isDigit c = false) :=
  ⟨by decide, by decide, by decide,
   (C18_take_while_longest ⟨[49, 50, 97, 51]⟩ isDigit (by decide)).1⟩

theorem signedCast_eq_iff (w : Nat) (hw : 1 ≤ w) (v : Int) :
    signedCast w v = v ↔ signedRepresentable w v := by
  obtain ⟨k, rfl⟩ : ∃ k, w = k + 1 := ⟨w - 1, by omega⟩
  have h2 : (2 : Int) ^ (k + 1) = 2 * 2 ^ k := by rw [pow_succ]; ring
  have hm : (0 : Int) < 2 ^ k := by positivity
  simp only [signedCast, signedRepresentable, Nat.add_sub_cancel, h2]
  generalize (2 : Int) ^ k = m at hm
  constructor
  · intro h
    have h1 := Int.emod_nonneg (v + m) (show (2 * m) ≠ 0 by omega)
    have h3 := Int.emod_lt_of_pos (v + m) (show 0 < 2 * m by omega)
    constructor <;> linarith
  · rintro ⟨h1, h3⟩
    rw [Int.emod_eq_of_lt (by linarith) (by linarith)]
    ring

theorem unsignedCast_eq_iff (T : UnsignedType) (hT : T.valid) (v : Nat) :
    T.cast v % SIZE_MOD = v ↔ T.representable v := by
  cases T with
  | bits w =>
    have hpow : 2 ^ w ≤ SIZE_MOD := by
      have : 2 ^ w ≤ 2 ^ 64 := Nat.pow_le_pow_right (by norm_num) hT
      simpa [SIZE_MOD] using this
    have hlt : v % 2 ^ w < 2 ^ w := Nat.mod_lt _ (by positivity)
    simp only [UnsignedType.cast, UnsignedType.representable]
    rw [Nat.mod_eq_of_lt (by omega)]
    constructor
    · intro h; omega
    · intro h; exact Nat.mod_eq_of_lt h
  | bool =>
    simp only [UnsignedType.cast, UnsignedType.representable]
    unfold SIZE_MOD
    split <;> omega

/-- C16: `getAsInteger<T>` reports overflow of `T` as an error. For every signed `T` of `w` bits
(`1 <= w <= 64`) and every `T` without a sign (an unsigned type of at most 64 bits, or `bool`),
every string and radix, it returns true iff the helper `getAsSignedInteger` /
`getAsUnsignedInteger` reports an error or the value it parsed is not representable in `T`; when
it returns false `Result` equals the parsed value, and when it returns true `Result` is left
unmodified. -/
theorem C16_getAsInteger_reports_overflow
    (getAsSignedInteger : StringRef → Nat → Bool × Int)
    (getAsUnsignedInteger : StringRef → Nat → Bool × Nat)
    (s : StringRef) (Radix w : Nat) (T : UnsignedType)
    (hw : 1 ≤ w ∧ w ≤ 64) (hT : T.valid) :
    (∀ Result : Int,
      ((getAsInteger_signed getAsSignedInteger w s Radix Result).1 = true ↔
        (getAsSignedInteger s Radix).1 = true ∨
          ¬ signedRepresentable w (getAsSignedInteger s Radix).2) ∧
      ((getAsInteger_signed getAsSignedInteger w s Radix Result).1 = false →
        (getAsInteger_signed getAsSignedInteger w s Radix Result).2
          = (getAsSignedInteger s Radix).2) ∧
      ((getAsInteger_signed getAsSignedInteger w s Radix Result).1 = true →
        (getAsInteger_signed getAsSignedInteger w s Radix Result).2 = Result)) ∧
    (∀ Result : Nat,
      ((getAsInteger_unsigned getAsUnsignedInteger T s Radix Result).1 = true ↔
        (getAsUnsignedInteger s Radix).1 = true ∨
          ¬ T.representable (getAsUnsignedInteger s Radix).2) ∧
      ((getAsInteger_unsigned getAsUnsignedInteger T s Radix Result).1 = false →
        (getAsInteger_unsigned getAsUnsignedInteger T s Radix Result).2
          = (getAsUnsignedInteger s Radix).2) ∧
      ((getAsInteger_unsigned getAsUnsignedInteger T s Radix Result).1 = true →
        (getAsInteger_unsigned getAsUnsignedInteger T s Radix Result).2 = Result)) := by
  constructor
  · intro Result
    have hiff := signedCast_eq_iff w hw.1 (getAsSignedInteger s Radix).2
    unfold getAsInteger_signed
    by_cases hc : (getAsSignedInteger s Radix).1 = true
        ∨ signedCast w (getAsSignedInteger s Radix).2 ≠ (getAsSignedInteger s Radix).2
    · rw [if_pos hc]
      refine ⟨⟨fun _ => ?_, fun _ => rfl⟩, ?_, fun _ => rfl⟩
      · rcases hc with h | h
        · exact Or.inl h
        · exact Or.inr (fun hr => h (hiff.mpr hr))
      · intro h
        cases h
    · rw [if_neg hc]
      have hc' := not_or.mp hc
      have heq : signedCast w (getAsSignedInteger s Radix).2 = (getAsSignedInteger s Radix).2 :=
        not_not.mp hc'.2
      refine ⟨⟨?_, ?_⟩, fun _ => heq, ?_⟩
      · intro h
        cases h
      · rintro (h | h)
        · exact absurd h hc'.1
        · exact absurd (hiff.mp heq) h
      · intro h
        cases h
  · intro Result
    have hiff := unsignedCast_eq_iff T hT (getAsUnsignedInteger s Radix).2
    unfold getAsInteger_unsigned
    by_cases hc : (getAsUnsignedInteger s Radix).1 = true
        ∨ T.cast (getAsUnsignedInteger s Radix).2 % SIZE_MOD ≠ (getAsUnsignedInteger s Radix).2
    · rw [if_pos hc]
      refine ⟨⟨fun _ => ?_, fun _ => rfl⟩, ?_, fun _ => rfl⟩
      · rcases hc with h | h
        · exact Or.inl h
        · exact Or.inr (fun hr => h (hiff.mpr hr))
      · intro h
        cases h
    · rw [if_neg hc]
      have hc' := not_or.mp hc
      have heq : T.cast (getAsUnsignedInteger s Radix).2 % SIZE_MOD
          = (getAsUnsignedInteger s Radix).2 := not_not.mp hc'.2
      have hrep := hiff.mp heq
      have hval : T.cast (getAsUnsignedInteger s Radix).2 = (getAsUnsignedInteger s Radix).2 := by
        cases T with
        | bits w' =>
          simp only [UnsignedType.cast, UnsignedType.representable] at hrep ⊢
          exact Nat.mod_eq_of_lt hrep
        | bool =>
          simp only [UnsignedType.cast, UnsignedType.representable] at hrep ⊢
          split <;> omega
      refine ⟨⟨?_, ?_⟩, fun _ => hval, ?_⟩
      · intro h
        cases h
      · rintro (h | h)
        · exact absurd h hc'.1
        · exact absurd hrep h
      · intro h
        cases h

/-- Witness for C16: with an 8-bit `T`, a parsed 300 is an error that leaves `Result` (here 7)
alone, and a parsed 100 is stored. -/
theorem C16_getAsInteger_reports_overflow_witness :
    getAsInteger_signed (fun _ _ => (false, 300)) 8 ⟨[51, 48, 48]⟩ 10 7 = (true, 7) ∧
    getAsInteger_signed (fun _ _ => (false, 100)) 8 ⟨[49, 48, 48]⟩ 10 7 = (false, 100) ∧
    getAsInteger_signed (fun _ _ => (false, -129)) 8 ⟨[45, 49, 50, 57]⟩ 10 7 = (true, 7) ∧
    getAsInteger_unsigned (fun _ _ => (false, 300)) (UnsignedType.bits 8) ⟨[51, 48, 48]⟩ 10 7
      = (true, 7) ∧
    getAsInteger_unsigned (fun _ _ => (false, 255)) (UnsignedType.bits 8) ⟨[50, 53, 53]⟩ 10 7
      = (false, 255) ∧
    getAsInteger_unsigned (fun _ _ => (false, 2)) UnsignedType.bool ⟨[50]⟩ 10 0 = (true, 0) ∧
    ((getAsInteger_signed (fun _ _ => (false, 300)) 8 ⟨[51, 48, 48]⟩ 10 7).1 = true ↔
      ((fun (_ : StringRef) (_ : Nat) => ((false, 300) : Bool × Int)) ⟨[51, 48, 48]⟩ 10).1 = true ∨
        ¬ signedRepresentable 8
          ((fun (_ : StringRef) (_ : Nat) => ((false, 300) : Bool × Int)) ⟨[51, 48, 48]⟩ 10).2) :=
  ⟨by decide, by decide, by decide, by decide, by decide, by decide,
   ((C16_getAsInteger_reports_overflow (fun _ _ => (false, 300)) (fun _ _ => (false, 300))
      ⟨[51, 48, 48]⟩ 10 8 (UnsignedType.bits 8) (by decide)
      (show (8 : Nat) ≤ 64 by decide)).1 7).1⟩

end StringRef

end wpi
